import Mathlib

/-!
# Verification of the LogAnalyser core (src/datastructures.py)

Shallow embedding of the in-memory index of the LogAnalyser repository:
a digit-keyed trie over the 14 digit characters of a timestamp, where each
node caches a distinct-query count and a bounded top-50 ranking, plus the
query-text interning store.  Python classes become Lean structures, Python
dictionaries become association lists, mutation becomes explicit state
passing, and raised exceptions become an `Except PyErr` result.
-/

/-- The exception kinds the core can raise: `RuntimeError` (QueryStore
mutated after `finalize`), `AssertionError` (a failed `assert`),
`IndexError` (Python list indexing out of range), and the two exception
classes `InvalidQuerySize` and `InvalidDatePrefix` defined in
`datastructures.py`. -/
inductive PyErr : Type where
  | runtimeError : PyErr
  | assertionError : PyErr
  | indexError : PyErr
  | invalidQuerySize : PyErr
  | invalidDatePrefix : PyErr
deriving DecidableEq

/-- `TopQuery = namedtuple("TopQuery", ["id", "count"])`. -/
structure TopQuery : Type where
  id : Nat
  count : Nat
deriving DecidableEq

/-- `TOP_QUERIES_SIZE_K = 50`. -/
def TOP_QUERIES_SIZE_K : Nat := 50

/-- Stable insertion into a list sorted by `count` descending: the inserted
element goes before the first strictly smaller entry and after entries of
equal count, matching the stability of Python's `list.sort`. -/
def insertTQ (x : TopQuery) : List TopQuery → List TopQuery
  | [] => [x]
  | y :: ys => if y.count ≤ x.count then x :: y :: ys else y :: insertTQ x ys

/-- `self.top_queries.sort(key=lambda tq: -tq.count)`: a stable sort by
count descending (stable sorts by a key are unique, so insertion sort is
a faithful model of Timsort here). -/
def sortTopQueries : List TopQuery → List TopQuery
  | [] => []
  | x :: xs => insertTQ x (sortTopQueries xs)

/-- `TopQueriesCache.find_query`: the index of the first entry with the
given id, or `none`. -/
def TopQueriesCache.find_query : List TopQuery → Nat → Option Nat
  | [], _ => none
  | tq :: rest, query_id =>
    if tq.id = query_id then some 0
    else Option.map (· + 1) (TopQueriesCache.find_query rest query_id)

/-- `TopQueriesCache.update(query_id, query_count)`.  The two `assert`
statements of the source are modelled by the `assertionError` branch; the
`self.top_queries[-1] = ...` assignment on a (necessarily nonempty) full
cache is `dropLast ++ [...]`. -/
def TopQueriesCache.update (cache : List TopQuery) (query_id query_count : Nat) :
    Except PyErr (List TopQuery) :=
  match TopQueriesCache.find_query cache query_id with
  | some idx =>
    match cache.get? idx with
    | none => .error .indexError
    | some tq =>
      if tq.id = query_id ∧ (tq.count : Int) = (query_count : Int) - 1 then
        .ok (sortTopQueries (cache.set idx ⟨query_id, query_count⟩))
      else .error .assertionError
  | none =>
    if cache.length < TOP_QUERIES_SIZE_K then
      .ok (sortTopQueries (cache ++ [⟨query_id, query_count⟩]))
    else
      match cache.getLast? with
      | none => .error .indexError
      | some last =>
        if last.count < query_count then
          .ok (sortTopQueries (cache.dropLast ++ [⟨query_id, query_count⟩]))
        else .ok cache

/-- Python slice `l[:k]` for an arbitrary integer `k`: nonnegative `k`
takes the first `k` elements, negative `k` drops the last `-k`. -/
def pySlice {α : Type} (l : List α) (k : Int) : List α :=
  if 0 ≤ k then l.take k.toNat else l.take (l.length - (-k).toNat)

/-- `TopQueriesCache.get(limit)`: `self.top_queries[:limit]`. -/
def TopQueriesCache.get (cache : List TopQuery) (limit : Int) : List TopQuery :=
  pySlice cache limit

/-- `QueryData = namedtuple("QueryData", ["query_text", "prefix_count"])`;
the per-query `prefix_count` dict becomes an association list keyed by the
digit sequence of the prefix (Python keys the dict by the prefix string of
digit characters, which is in bijection with the digit list). -/
structure QueryData : Type where
  query_text : String
  prefix_count : List (List Nat × Nat)
deriving DecidableEq

/-- The `QueryStore` class: `queries_data` list, `text_index` dict
(association list in insertion order) and the `finalized` flag. -/
structure QueryStore : Type where
  queries_data : List QueryData
  text_index : List (String × Nat)
  finalized : Bool
deriving DecidableEq

/-- Dict lookup in a `prefix_count` association list. -/
def lookupPC (m : List (List Nat × Nat)) (k : List Nat) : Option Nat :=
  match m.find? (fun q => decide (q.1 = k)) with
  | some q => some q.2
  | none => none

/-- Dict assignment `d[k] = v` on a `prefix_count` association list:
replace the binding in place if present, else append. -/
def setPC (m : List (List Nat × Nat)) (k : List Nat) (v : Nat) : List (List Nat × Nat) :=
  match m.find? (fun q => decide (q.1 = k)) with
  | some _ => m.map (fun q => if q.1 = k then (k, v) else q)
  | none => m ++ [(k, v)]

/-- Dict lookup in the `text_index` association list. -/
def lookupStr (m : List (String × Nat)) (k : String) : Option Nat :=
  match m.find? (fun q => decide (q.1 = k)) with
  | some q => some q.2
  | none => none

/-- A fresh `QueryStore()`. -/
def QueryStore.empty : QueryStore := ⟨[], [], false⟩

/-- `QueryStore.add(query_text)`: raises `RuntimeError` when finalized,
returns the existing id for a known text, otherwise appends a fresh record
with an empty counts dict and indexes it. -/
def QueryStore.add (s : QueryStore) (query_text : String) :
    Except PyErr (Nat × QueryStore) :=
  if s.finalized then .error .runtimeError
  else
    match lookupStr s.text_index query_text with
    | some query_id => .ok (query_id, s)
    | none =>
      .ok (s.queries_data.length,
        { s with
          queries_data := s.queries_data ++ [⟨query_text, []⟩],
          text_index := s.text_index ++ [(query_text, s.queries_data.length)] })

/-- Python list indexing `l[i]` for an arbitrary integer index: indices in
`[0, len)` and `[-len, 0)` succeed (the latter counting from the end), all
others raise `IndexError`. -/
def pyIndex {α : Type} (l : List α) (i : Int) : Option α :=
  if 0 ≤ i then l.get? i.toNat
  else if -(l.length : Int) ≤ i then l.get? (l.length - (-i).toNat)
  else none

/-- `QueryStore.get(query_id)`: `self.queries_data[query_id]` with Python
list-index semantics. -/
def QueryStore.get (s : QueryStore) (query_id : Int) : Except PyErr QueryData :=
  match pyIndex s.queries_data query_id with
  | some qd => .ok qd
  | none => .error .indexError

/-- `QueryStore.finalize()`: clears the dedup index and every record's
transient counts dict, then sets `finalized = True`.  Note the source has
no already-finalized guard. -/
def QueryStore.finalize (s : QueryStore) : QueryStore :=
  { queries_data := s.queries_data.map (fun qd => ⟨qd.query_text, []⟩),
    text_index := [],
    finalized := true }

/-- The `TrieNode` class: ten optional children, the cached distinct-query
count, and the node's `TopQueriesCache` (its `top_queries` list). -/
inductive TrieNode : Type where
  | mk (children : List (Option TrieNode)) (distinct : Nat)
      (top_queries_cache : List TopQuery)

def TrieNode.children : TrieNode → List (Option TrieNode)
  | .mk c _ _ => c

def TrieNode.distinct : TrieNode → Nat
  | .mk _ d _ => d

def TrieNode.top_queries_cache : TrieNode → List TopQuery
  | .mk _ _ q => q

/-- `TrieNode()`: `children = [None] * 10`, `distinct = 0`, empty cache. -/
def TrieNode.empty : TrieNode := .mk (List.replicate 10 none) 0 []

/-- `node.children[digit]` read. -/
def getChild (node : TrieNode) (d : Nat) : Option TrieNode :=
  match node.children.get? d with
  | some c => c
  | none => none

/-- `node.children[digit] = child`. -/
def setChild (node : TrieNode) (d : Nat) (c : TrieNode) : TrieNode :=
  .mk (node.children.set d (some c)) node.distinct node.top_queries_cache

/-- The `Trie` class: the root node and the owned `QueryStore`. -/
structure Trie : Type where
  root : TrieNode
  query_store : QueryStore

/-- `Trie()`. -/
def Trie.init : Trie := ⟨TrieNode.empty, QueryStore.empty⟩

/-- `int(c)` for an ASCII digit character. -/
def charDigit (c : Char) : Nat := c.toNat - 48

/-- `[int(c) for c in s if c.isdigit()]`. -/
def digitsOf (s : String) : List Nat :=
  (s.toList.filter Char.isDigit).map charDigit

/-- Overwrite the `prefix_count` of the record at the given index (the
write-back of Python's in-place mutation through the aliased dict). -/
def setPCAt : List QueryData → Nat → List (List Nat × Nat) → List QueryData
  | [], _, _ => []
  | qd :: rest, 0, pc => ⟨qd.query_text, pc⟩ :: rest
  | qd :: rest, i + 1, pc => qd :: setPCAt rest i pc

/-- The digit loop of `Trie.add`: walk the remaining digits from `node`
(the node at path `pfx`), creating children lazily, incrementing this
query's per-prefix counter, bumping `distinct` on a first visit, and
updating each node's top-queries cache. -/
def addDigits (query_id : Nat) :
    List Nat → List Nat → List (List Nat × Nat) → TrieNode →
    Except PyErr (TrieNode × List (List Nat × Nat))
  | [], _, pc, node => .ok (node, pc)
  | d :: rest, pfx, pc, node =>
    let child := match getChild node d with
      | some c => c
      | none => TrieNode.empty
    let newCount := match lookupPC pc (pfx ++ [d]) with
      | none => 1
      | some c => c + 1
    let distinct1 := match lookupPC pc (pfx ++ [d]) with
      | none => child.distinct + 1
      | some _ => child.distinct
    match TopQueriesCache.update child.top_queries_cache query_id newCount with
    | .error e => .error e
    | .ok cache1 =>
      match addDigits query_id rest (pfx ++ [d]) (setPC pc (pfx ++ [d]) newCount)
          (TrieNode.mk child.children distinct1 cache1) with
      | .error e => .error e
      | .ok (child2, pc2) => .ok (setChild node d child2, pc2)

/-- `Trie.add(timestamp, query_text)`: the `assert len(time_digits) == 14`
guard, the store interning (which raises if finalized), the record fetch,
and the digit loop.  A successful call returns the new trie state. -/
def Trie.add (t : Trie) (timestamp query_text : String) : Except PyErr Trie :=
  if (digitsOf timestamp).length = 14 then
    match QueryStore.add t.query_store query_text with
    | .error e => .error e
    | .ok (query_id, store1) =>
      match QueryStore.get store1 (query_id : Int) with
      | .error e => .error e
      | .ok qd =>
        match addDigits query_id (digitsOf timestamp) [] qd.prefix_count t.root with
        | .error e => .error e
        | .ok (root1, pc1) =>
          .ok ⟨root1, { store1 with
            queries_data := setPCAt store1.queries_data query_id pc1 }⟩
  else .error .assertionError

/-- The child-pointer walk inside `Trie.get_node_at_prefix`: follow one
digit at a time, `none` as soon as a child is missing. -/
def walk : TrieNode → List Nat → Option TrieNode
  | node, [] => some node
  | node, d :: rest =>
    match getChild node d with
    | none => none
    | some c => walk c rest

/-- `Trie.get_node_at_prefix(prefix)`: extract the digit characters,
raise `InvalidDatePrefix` when there are none, else walk the trie. -/
def Trie.get_node_at_prefix (t : Trie) (date : String) :
    Except PyErr (Option TrieNode) :=
  if digitsOf date = [] then .error .invalidDatePrefix
  else .ok (walk t.root (digitsOf date))

/-- The list comprehension translating cached ids back to texts via
`self.query_store.get(tq.id).query_text`. -/
def translateTop (s : QueryStore) : List TopQuery → Except PyErr (List (String × Nat))
  | [] => .ok []
  | tq :: rest =>
    match QueryStore.get s (tq.id : Int) with
    | .error e => .error e
    | .ok qd =>
      match translateTop s rest with
      | .error e => .error e
      | .ok out => .ok ((qd.query_text, tq.count) :: out)

/-- `Trie.top_queries_by_prefix(prefix, size)`: the `size > 50` guard
comes first, then the node lookup (empty list when the node is missing),
then the slice of the node's cache translated back to texts. -/
def Trie.top_queries_by_prefix (t : Trie) (date : String) (size : Int) :
    Except PyErr (List (String × Nat)) :=
  if (TOP_QUERIES_SIZE_K : Int) < size then .error .invalidQuerySize
  else
    match Trie.get_node_at_prefix t date with
    | .error e => .error e
    | .ok none => .ok []
    | .ok (some node) =>
      translateTop t.query_store (TopQueriesCache.get node.top_queries_cache size)

/-- `Trie.distinct_queries_by_prefix(prefix)`: 0 when the node is missing,
else the node's cached `distinct`. -/
def Trie.distinct_queries_by_prefix (t : Trie) (date : String) : Except PyErr Nat :=
  match Trie.get_node_at_prefix t date with
  | .error e => .error e
  | .ok none => .ok 0
  | .ok (some node) => .ok node.distinct

/-- `Trie.finalize()`: delegates to the store's finalize (no guard of its
own in the source). -/
def Trie.finalize (t : Trie) : Trie := ⟨t.root, QueryStore.finalize t.query_store⟩

/-- An ingested record: `(timestamp, query_text)`. -/
abbrev LogRecord := String × String

/-- Run a sequence of `add` calls from a given trie state. -/
def runAddsFrom (t : Trie) : List LogRecord → Except PyErr Trie
  | [] => .ok t
  | r :: rest =>
    match Trie.add t r.1 r.2 with
    | .error e => .error e
    | .ok t1 => runAddsFrom t1 rest

/-- Run a sequence of `add` calls on a fresh trie. -/
def runAdds (rs : List LogRecord) : Except PyErr Trie := runAddsFrom Trie.init rs

/-! ## Brute-force (specification-side) counting over the record stream -/

/-- Brute-force recount: how many ingested records have digit sequence
starting with `p` and text equal to `s`. -/
def countAt (rs : List LogRecord) (p : List Nat) (s : String) : Nat :=
  (rs.filter (fun rr => decide (p <+: digitsOf rr.1 ∧ rr.2 = s))).length

/-- Brute-force distinct count: the number of distinct texts among the
records whose digit sequence starts with `p`. -/
def dCount (rs : List LogRecord) (p : List Nat) : Nat :=
  (((rs.filter (fun rr => decide (p <+: digitsOf rr.1))).map (fun rr => rr.2)).toFinset).card

/-- The distinct texts of the stream in order of first occurrence; this is
exactly the sequence of texts interned by the `QueryStore`, so the id of a
text is its index in this list. -/
def distinctTexts (rs : List LogRecord) : List String :=
  rs.foldl (fun acc rr => if rr.2 ∈ acc then acc else acc ++ [rr.2]) []

/-- The true count function at a node: the brute-force count at `p` of the
text with the given id (0 for an id that was never issued). -/
def fOf (rs : List LogRecord) (p : List Nat) (id : Nat) : Nat :=
  match (distinctTexts rs).get? id with
  | some s => countAt rs p s
  | none => 0

/-- The count of text `s` at `p` in the middle of processing one extra
record whose digit path has been consumed up to `q`. -/
def midCount (rs : List LogRecord) (s : String) (q p : List Nat) : Nat :=
  countAt rs p s + (if p <+: q then 1 else 0)

/-- The expected `prefix_count` binding in the middle of processing one
extra record with text `s`, consumed up to `q`: a key is present exactly
for a nonempty prefix with a positive count. -/
def expMid (rs : List LogRecord) (s : String) (q p : List Nat) : Option Nat :=
  if p ≠ [] ∧ 0 < midCount rs s q p then some (midCount rs s q p) else none

/-- The true count function after one more occurrence of the query `qid`. -/
def bumpF (f : Nat → Nat) (qid : Nat) : Nat → Nat :=
  fun id => if id = qid then f qid + 1 else f id

/-- The count of the last (least, by the descending sort) cache entry. -/
def minCount (cache : List TopQuery) : Nat :=
  match cache.getLast? with
  | some tq => tq.count
  | none => 0

/-- Correctness of a node's top-queries cache relative to the true count
function `f`: every entry carries its true positive count, ids are not
repeated, the list is sorted by count descending and bounded by 50, and
any query with a positive count that is missing can only be missing from
a full cache whose minimum dominates it (a true top-≤50 set). -/
structure CacheInv (f : Nat → Nat) (cache : List TopQuery) : Prop where
  counts : ∀ tq ∈ cache, f tq.id = tq.count ∧ 0 < tq.count
  nodup : (cache.map TopQuery.id).Nodup
  sorted : cache.Pairwise (fun a b => b.count ≤ a.count)
  bounded : cache.length ≤ TOP_QUERIES_SIZE_K
  complete : ∀ id, 0 < f id → ¬ id ∈ cache.map TopQuery.id →
    cache.length = TOP_QUERIES_SIZE_K ∧ f id ≤ minCount cache

/-- The global invariant tying a trie state to the stream of records
ingested so far. -/
structure TrieInv (rs : List LogRecord) (t : Trie) : Prop where
  hfin : t.query_store.finalized = false
  htexts : t.query_store.queries_data.map QueryData.query_text = distinctTexts rs
  hidx_some : ∀ s i, lookupStr t.query_store.text_index s = some i →
    (distinctTexts rs).get? i = some s
  hidx_none : ∀ s, lookupStr t.query_store.text_index s = none →
    ¬ s ∈ distinctTexts rs
  hpc : ∀ i qd, t.query_store.queries_data.get? i = some qd →
    ∀ p, lookupPC qd.prefix_count p = expMid rs qd.query_text [] p
  hlen10 : ∀ p n1, walk t.root p = some n1 → n1.children.length = 10
  hexists : ∀ p, p ≠ [] → ((walk t.root p).isSome ↔ ∃ rr ∈ rs, p <+: digitsOf rr.1)
  hnode : ∀ p n1, p ≠ [] → walk t.root p = some n1 →
    n1.distinct = dCount rs p ∧ CacheInv (fOf rs p) n1.top_queries_cache

/-! ## Concrete inputs used by witnesses and counterexamples -/

/-- The end-to-end example stream from the source's own tests. -/
def rsEx : List LogRecord :=
  [("2014-08-01 00:03:49", "vungle"),
   ("2015-09-01 00:03:49", "vungle"),
   ("2015-08-01 00:03:49", "test"),
   ("2015-11-01 00:03:49", "test")]

/-- The trie built from `rsEx`. -/
def tEx : Trie :=
  match runAdds rsEx with
  | .ok t => t
  | .error _ => Trie.init

/-- Two records with distinct texts and a shared timestamp prefix: both
queries end up with count 1 at the shared node. -/
def rsTie : List LogRecord :=
  [("2015-01-01 00:00:00", "a"), ("2015-01-01 00:00:01", "b")]

/-- The trie built from `rsTie`. -/
def tTie : Trie :=
  match runAdds rsTie with
  | .ok t => t
  | .error _ => Trie.init

/-! ## Lemmas about the sort and the cache -/

theorem insertTQ_perm (x : TopQuery) (l : List TopQuery) :
    (insertTQ x l).Perm (x :: l) := by
  induction l with
  | nil => simp [insertTQ]
  | cons y ys ih =>
    by_cases h : y.count ≤ x.count
    · simp [insertTQ, h]
    · simpa [insertTQ, h] using (ih.cons y).trans (List.Perm.swap x y ys)

theorem sortTopQueries_perm (l : List TopQuery) : (sortTopQueries l).Perm l := by
  induction l with
  | nil => simp [sortTopQueries]
  | cons x xs ih => exact (insertTQ_perm x (sortTopQueries xs)).trans (ih.cons x)

theorem insertTQ_sorted (x : TopQuery) (l : List TopQuery)
    (h : l.Pairwise (fun a b => b.count ≤ a.count)) :
    (insertTQ x l).Pairwise (fun a b => b.count ≤ a.count) := by
  induction l with
  | nil => simp [insertTQ]
  | cons y ys ih =>
    rcases List.pairwise_cons.mp h with ⟨hy, hys⟩
    by_cases hc : y.count ≤ x.count
    · simp only [insertTQ, if_pos hc]
      refine List.pairwise_cons.mpr ⟨?_, h⟩
      intro z hz
      rcases List.mem_cons.mp hz with rfl | hz
      · exact hc
      · exact le_trans (hy z hz) hc
    · simp only [insertTQ, if_neg hc]
      refine List.pairwise_cons.mpr ⟨?_, ih hys⟩
      intro z hz
      have hz2 : z ∈ x :: ys := (insertTQ_perm x ys).mem_iff.mp hz
      rcases List.mem_cons.mp hz2 with rfl | hz3
      · exact le_of_not_le hc
      · exact hy z hz3

theorem sortTopQueries_sorted (l : List TopQuery) :
    (sortTopQueries l).Pairwise (fun a b => b.count ≤ a.count) := by
  induction l with
  | nil => simp [sortTopQueries]
  | cons x xs ih => exact insertTQ_sorted x (sortTopQueries xs) ih

theorem getLast?_decomp {α : Type} : ∀ {l : List α} {x : α},
    l.getLast? = some x → l.dropLast ++ [x] = l ∧ x ∈ l := by
  intro l
  induction l with
  | nil => intro x h; simp at h
  | cons a t ih =>
    intro x h
    cases t with
    | nil =>
      simp only [List.getLast?_singleton, Option.some.injEq] at h
      subst h
      simp
    | cons b t2 =>
      rw [List.getLast?_cons_cons] at h
      rcases ih h with ⟨h1, h2⟩
      constructor
      · simpa [List.dropLast] using h1
      · exact List.mem_cons_of_mem a h2

theorem minCount_mem {cache : List TopQuery} (h : cache ≠ []) :
    ∃ tq ∈ cache, tq.count = minCount cache := by
  rcases List.exists_mem_of_ne_nil cache h with ⟨w, hw⟩
  rcases hx : cache.getLast? with _ | x
  · rcases cache with _ | ⟨a, t⟩
    · exact absurd rfl h
    · simp [List.getLast?_eq_getLast] at hx
  · rcases getLast?_decomp hx with ⟨_, hmem⟩
    exact ⟨x, hmem, by simp [minCount, hx]⟩

theorem minCount_le {cache : List TopQuery}
    (hs : cache.Pairwise (fun a b => b.count ≤ a.count)) :
    ∀ tq ∈ cache, minCount cache ≤ tq.count := by
  intro tq htq
  rcases hx : cache.getLast? with _ | x
  · rcases cache with _ | ⟨a, t⟩
    · simp at htq
    · simp [List.getLast?_eq_getLast] at hx
  · rcases getLast?_decomp hx with ⟨hdec, hmem⟩
    have hmc : minCount cache = x.count := by simp [minCount, hx]
    rw [hmc]
    rcases List.mem_append.mp (by rw [hdec]; exact htq) with hpre | hlast
    · have hpair := List.pairwise_append.mp (by rw [← hdec] at hs; exact hs)
      exact hpair.2.2 tq hpre x (List.mem_singleton_self x)
    · rcases List.mem_singleton.mp hlast with rfl
      exact le_refl _

theorem find_query_none : ∀ {cache : List TopQuery} {qid : Nat},
    TopQueriesCache.find_query cache qid = none → ¬ qid ∈ cache.map TopQuery.id := by
  intro cache
  induction cache with
  | nil => intro qid _ hmem; simp at hmem
  | cons tq rest ih =>
    intro qid h hmem
    simp only [List.map_cons, List.mem_cons] at hmem
    by_cases he : tq.id = qid
    · simp [TopQueriesCache.find_query, he] at h
    · simp only [TopQueriesCache.find_query, if_neg he] at h
      rcases hmem with hq | hq
      · exact he hq.symm
      · exact ih (Option.map_eq_none'.mp h) hq

theorem find_query_decomp : ∀ {cache : List TopQuery} {qid idx : Nat},
    TopQueriesCache.find_query cache qid = some idx →
    ∃ pre tq post, cache = pre ++ tq :: post ∧ pre.length = idx ∧ tq.id = qid ∧
      cache.get? idx = some tq ∧ ∀ x, cache.set idx x = pre ++ x :: post := by
  intro cache
  induction cache with
  | nil => intro qid idx h; simp [TopQueriesCache.find_query] at h
  | cons tq0 rest ih =>
    intro qid idx h
    by_cases he : tq0.id = qid
    · simp only [TopQueriesCache.find_query, if_pos he, Option.some.injEq] at h
      exact ⟨[], tq0, rest, by simp, by simp [← h], he, by simp [← h], by simp [← h]⟩
    · simp only [TopQueriesCache.find_query, if_neg he] at h
      rcases Option.map_eq_some'.mp h with ⟨j, hj, hidx⟩
      rcases ih hj with ⟨pre, tq, post, hc, hlen, hid, hget, hset⟩
      refine ⟨tq0 :: pre, tq, post, by simp [hc], by simp [hlen, hidx], hid, ?_, ?_⟩
      · simpa [← hidx] using hget
      · intro x
        simp [← hidx, hset x]

theorem cacheInv_of_sort {g : Nat → Nat} {l2 : List TopQuery}
    (hcounts : ∀ tq ∈ l2, g tq.id = tq.count ∧ 0 < tq.count)
    (hnodup : (l2.map TopQuery.id).Nodup)
    (hbound : l2.length ≤ TOP_QUERIES_SIZE_K)
    (hcomp : ∀ id, 0 < g id → ¬ id ∈ l2.map TopQuery.id →
      l2.length = TOP_QUERIES_SIZE_K ∧ ∀ tq ∈ l2, g id ≤ tq.count) :
    CacheInv g (sortTopQueries l2) := by
  have hperm := sortTopQueries_perm l2
  refine ⟨?_, ?_, sortTopQueries_sorted l2, ?_, ?_⟩
  · intro tq htq
    exact hcounts tq (hperm.mem_iff.mp htq)
  · exact ((hperm.map TopQuery.id).nodup_iff).mpr hnodup
  · rw [hperm.length_eq]
    exact hbound
  · intro id hid hnotin
    have hnotin2 : ¬ id ∈ l2.map TopQuery.id := by
      intro hmem
      exact hnotin (((hperm.map TopQuery.id).mem_iff).mpr hmem)
    rcases hcomp id hid hnotin2 with ⟨hlen, hle⟩
    have hlenS : (sortTopQueries l2).length = TOP_QUERIES_SIZE_K := by
      rw [hperm.length_eq]
      exact hlen
    refine ⟨hlenS, ?_⟩
    have hne : sortTopQueries l2 ≠ [] := by
      intro hnil
      rw [hnil] at hlenS
      simp [TOP_QUERIES_SIZE_K] at hlenS
    rcases minCount_mem hne with ⟨w, hw, hwc⟩
    rw [← hwc]
    exact hle w (hperm.mem_iff.mp hw)

theorem cacheInv_update {f : Nat → Nat} {cache : List TopQuery} {qid : Nat}
    (hinv : CacheInv f cache) :
    ∃ cache2, TopQueriesCache.update cache qid (f qid + 1) = .ok cache2 ∧
      CacheInv (bumpF f qid) cache2 := by
  rcases hfind : TopQueriesCache.find_query cache qid with _ | idx
  · -- qid is not cached
    have hnotin : ¬ qid ∈ cache.map TopQuery.id := find_query_none hfind
    have hne_id : ∀ e ∈ cache, e.id ≠ qid := by
      intro e he hid
      exact hnotin (hid ▸ List.mem_map_of_mem TopQuery.id he)
    by_cases hlt : cache.length < TOP_QUERIES_SIZE_K
    · -- cache not full: append
      refine ⟨sortTopQueries (cache ++ [⟨qid, f qid + 1⟩]), ?_, ?_⟩
      · simp only [TopQueriesCache.update, hfind, if_pos hlt]
      · apply cacheInv_of_sort
        · intro e he
          rcases List.mem_append.mp he with hin | hnew
          · have heid := hne_id e hin
            have := hinv.counts e hin
            simpa [bumpF, heid] using this
          · rcases List.mem_singleton.mp hnew with rfl
            simp [bumpF]
        · have : (cache ++ [(⟨qid, f qid + 1⟩ : TopQuery)]).map TopQuery.id
              = cache.map TopQuery.id ++ [qid] := by simp
          rw [this]
          refine List.nodup_append.mpr ⟨hinv.nodup, List.nodup_singleton qid, ?_⟩
          intro a ha hb
          rcases List.mem_singleton.mp hb with rfl
          exact hnotin ha
        · simp only [List.length_append, List.length_singleton]
          omega
        · intro id hid0 hnotin2
          exfalso
          have hidne : id ≠ qid := by
            intro h
            subst h
            exact hnotin2 (by simp)
          have hfpos : 0 < f id := by simpa [bumpF, hidne] using hid0
          have hnotc : ¬ id ∈ cache.map TopQuery.id := by
            intro hm
            exact hnotin2 (by simp [hm])
          rcases hinv.complete id hfpos hnotc with ⟨hfull, _⟩
          omega
    · -- cache full
      have hfull : cache.length = TOP_QUERIES_SIZE_K :=
        Nat.le_antisymm hinv.bounded (Nat.le_of_not_lt hlt)
      have hne : cache ≠ [] := by
        intro h
        rw [h] at hfull
        simp [TOP_QUERIES_SIZE_K] at hfull
      have hlast_eq : cache.getLast? = some (cache.getLast hne) :=
        List.getLast?_eq_getLast cache hne
      rcases getLast?_decomp hlast_eq with ⟨hdecomp, hmem_last⟩
      have hminc : minCount cache = (cache.getLast hne).count := by
        simp [minCount, hlast_eq]
      have hsubset := (List.dropLast_sublist cache).subset
      by_cases hgt : (cache.getLast hne).count < f qid + 1
      · -- strictly better than the minimum: replace the last entry
        refine ⟨sortTopQueries (cache.dropLast ++ [⟨qid, f qid + 1⟩]), ?_, ?_⟩
        · simp only [TopQueriesCache.update, hfind, if_neg hlt, hlast_eq, if_pos hgt]
        · apply cacheInv_of_sort
          · intro e he
            rcases List.mem_append.mp he with hin | hnew
            · have hec : e ∈ cache := hsubset hin
              have heid := hne_id e hec
              have := hinv.counts e hec
              simpa [bumpF, heid] using this
            · rcases List.mem_singleton.mp hnew with rfl
              simp [bumpF]
          · have : (cache.dropLast ++ [(⟨qid, f qid + 1⟩ : TopQuery)]).map TopQuery.id
                = cache.dropLast.map TopQuery.id ++ [qid] := by simp
            rw [this]
            refine List.nodup_append.mpr
              ⟨hinv.nodup.sublist ((List.dropLast_sublist cache).map TopQuery.id),
               List.nodup_singleton qid, ?_⟩
            intro a ha hb
            rcases List.mem_singleton.mp hb with rfl
            rcases List.mem_map.mp ha with ⟨e, he, heq⟩
            exact hne_id e (hsubset he) heq
          · simp only [List.length_append, List.length_singleton, List.length_dropLast]
            have hfull50 : cache.length = 50 := hfull
            show cache.length - 1 + 1 ≤ 50
            omega
          · intro id hid0 hnotin2
            have hidne : id ≠ qid := by
              intro h
              subst h
              exact hnotin2 (by simp)
            have hfid : 0 < f id := by simpa [bumpF, hidne] using hid0
            have hlen2 : (cache.dropLast ++ [(⟨qid, f qid + 1⟩ : TopQuery)]).length
                = TOP_QUERIES_SIZE_K := by
              simp only [List.length_append, List.length_singleton, List.length_dropLast]
              have hfull50 : cache.length = 50 := hfull
              show cache.length - 1 + 1 = 50
              omega
            refine ⟨hlen2, ?_⟩
            -- f id is dominated by the evicted minimum
            have hkey : f id ≤ (cache.getLast hne).count := by
              by_cases hid_in : id ∈ cache.map TopQuery.id
              · -- id can only be the evicted last entry
                have hids : cache.map TopQuery.id
                    = cache.dropLast.map TopQuery.id ++ [(cache.getLast hne).id] := by
                  conv_lhs => rw [← hdecomp]
                  simp
                rw [hids] at hid_in
                rcases List.mem_append.mp hid_in with h1 | h2
                · exfalso
                  refine hnotin2 ?_
                  rw [List.map_append]
                  exact List.mem_append_left _ h1
                · rcases List.mem_singleton.mp h2 with rfl
                  have := hinv.counts (cache.getLast hne) hmem_last
                  rw [this.1]
              · rcases hinv.complete id hfid hid_in with ⟨_, hmin⟩
                rw [hminc] at hmin
                exact hmin
            intro w hw
            have hgoal : f id ≤ w.count → bumpF f qid id ≤ w.count := by
              intro h
              simpa [bumpF, hidne] using h
            apply hgoal
            rcases List.mem_append.mp hw with hin | hnew
            · have hwc : minCount cache ≤ w.count :=
                minCount_le hinv.sorted w (hsubset hin)
              rw [hminc] at hwc
              exact le_trans hkey hwc
            · rcases List.mem_singleton.mp hnew with rfl
              exact le_trans hkey (Nat.le_of_lt hgt)
      · -- not competitive: the cache is unchanged
        refine ⟨cache, ?_, ?_⟩
        · simp only [TopQueriesCache.update, hfind, if_neg hlt, hlast_eq, if_neg hgt]
        · refine ⟨?_, hinv.nodup, hinv.sorted, hinv.bounded, ?_⟩
          · intro e he
            have heid := hne_id e he
            have := hinv.counts e he
            simpa [bumpF, heid] using this
          · intro id hid0 hnotin2
            by_cases hidq : id = qid
            · subst hidq
              refine ⟨hfull, ?_⟩
              have : f id + 1 ≤ (cache.getLast hne).count := Nat.le_of_not_lt hgt
              rw [hminc]
              simpa [bumpF] using this
            · have hfid : 0 < f id := by simpa [bumpF, hidq] using hid0
              rcases hinv.complete id hfid hnotin2 with ⟨h1, h2⟩
              refine ⟨h1, ?_⟩
              simpa [bumpF, hidq] using h2
  · -- qid is cached at index idx
    rcases find_query_decomp hfind with ⟨pre, tq, post, hc, hlen, hid, hget, hset⟩
    have htq_mem : tq ∈ cache := by
      rw [hc]
      exact List.mem_append_right _ (List.mem_cons_self _ _)
    have hcount_tq : f qid = tq.count := by
      have := (hinv.counts tq htq_mem).1
      rw [hid] at this
      exact this
    have hcond : tq.id = qid ∧ (tq.count : Int) = ((f qid + 1 : Nat) : Int) - 1 := by
      refine ⟨hid, ?_⟩
      rw [← hcount_tq]
      push_cast
      ring
    have hids : cache.map TopQuery.id
        = pre.map TopQuery.id ++ qid :: post.map TopQuery.id := by
      rw [hc]
      simp [hid]
    have hnd := hinv.nodup
    rw [hids] at hnd
    have hqid_pre : ¬ qid ∈ pre.map TopQuery.id := by
      intro hm
      rcases List.nodup_append.mp hnd with ⟨_, _, hdisj⟩
      exact hdisj hm (List.mem_cons_self _ _)
    have hqid_post : ¬ qid ∈ post.map TopQuery.id := by
      rcases List.nodup_append.mp hnd with ⟨_, hnd2, _⟩
      exact (List.nodup_cons.mp hnd2).1
    refine ⟨sortTopQueries (pre ++ ⟨qid, f qid + 1⟩ :: post), ?_, ?_⟩
    · simp only [TopQueriesCache.update, hfind, hget]
      rw [if_pos hcond, hset]
    · have hl2ids : (pre ++ (⟨qid, f qid + 1⟩ : TopQuery) :: post).map TopQuery.id
          = pre.map TopQuery.id ++ qid :: post.map TopQuery.id := by simp
      have hl2len : (pre ++ (⟨qid, f qid + 1⟩ : TopQuery) :: post).length
          = cache.length := by
        rw [hc]
        simp
      apply cacheInv_of_sort
      · intro e he
        rcases List.mem_append.mp he with hpre | hrest
        · have heid : e.id ≠ qid := by
            intro h
            exact hqid_pre (h ▸ List.mem_map_of_mem TopQuery.id hpre)
          have := hinv.counts e (by rw [hc]; exact List.mem_append_left _ hpre)
          simpa [bumpF, heid] using this
        · rcases List.mem_cons.mp hrest with rfl | hpost
          · simp [bumpF]
          · have heid : e.id ≠ qid := by
              intro h
              exact hqid_post (h ▸ List.mem_map_of_mem TopQuery.id hpost)
            have := hinv.counts e
              (by rw [hc]; exact List.mem_append_right _ (List.mem_cons_of_mem _ hpost))
            simpa [bumpF, heid] using this
      · rw [hl2ids]
        exact hnd
      · rw [hl2len]
        exact hinv.bounded
      · intro id hid0 hnotin2
        have hidne : id ≠ qid := by
          intro h
          subst h
          exact hnotin2 (by simp)
        have hfid : 0 < f id := by simpa [bumpF, hidne] using hid0
        have hnotc : ¬ id ∈ cache.map TopQuery.id := by
          rw [hids, ← hl2ids]
          exact hnotin2
        rcases hinv.complete id hfid hnotc with ⟨hfull, hmin⟩
        refine ⟨by rw [hl2len]; exact hfull, ?_⟩
        intro w hw
        have hgoal : f id ≤ w.count → bumpF f qid id ≤ w.count := by
          intro h
          simpa [bumpF, hidne] using h
        apply hgoal
        rcases List.mem_append.mp hw with hpre | hrest
        · exact le_trans hmin
            (minCount_le hinv.sorted w (by rw [hc]; exact List.mem_append_left _ hpre))
        · rcases List.mem_cons.mp hrest with rfl | hpost
          · have h1 : minCount cache ≤ tq.count := minCount_le hinv.sorted tq htq_mem
            have h2 : f id ≤ f qid := le_trans hmin (by rw [hcount_tq]; exact h1)
            exact le_trans h2 (Nat.le_succ _)
          · exact le_trans hmin
              (minCount_le hinv.sorted w
                (by rw [hc]; exact List.mem_append_right _ (List.mem_cons_of_mem _ hpost)))

/-! ## Lemmas about the association lists -/

theorem lookup_map_repl_same {k : List Nat} {v : Nat} :
    ∀ m : List (List Nat × Nat), (m.find? (fun q => decide (q.1 = k))).isSome →
      lookupPC (m.map (fun q => if q.1 = k then (k, v) else q)) k = some v := by
  intro m
  induction m with
  | nil => intro h; simp [List.find?] at h
  | cons q0 m1 ih =>
    intro h
    by_cases h0 : q0.1 = k
    · simp [lookupPC, List.find?, h0]
    · rw [List.find?_cons_of_neg _ (by simpa using h0)] at h
      have := ih h
      simpa [lookupPC, List.find?, h0] using this

theorem lookup_map_repl_other {k : List Nat} {v : Nat} {p : List Nat} (hp : p ≠ k) :
    ∀ m : List (List Nat × Nat),
      lookupPC (m.map (fun q => if q.1 = k then (k, v) else q)) p = lookupPC m p := by
  intro m
  induction m with
  | nil => simp [lookupPC]
  | cons q0 m1 ih =>
    by_cases h0 : q0.1 = k
    · have hkp : ¬ (k = p) := fun h => hp h.symm
      simp [lookupPC, List.find?, h0, hkp] at ih ⊢
      exact ih
    · by_cases h1 : q0.1 = p
      · simp [lookupPC, List.find?, h0, h1, hp]
      · simp [lookupPC, List.find?, h0, h1] at ih ⊢
        exact ih

theorem lookupPC_append_one :
    ∀ (m : List (List Nat × Nat)) (k : List Nat) (v : Nat) (p : List Nat),
      lookupPC (m ++ [(k, v)]) p =
        match lookupPC m p with
        | some w => some w
        | none => if p = k then some v else none := by
  intro m
  induction m with
  | nil =>
    intro k v p
    by_cases h : p = k
    · simp [lookupPC, List.find?, h]
    · have : ¬ (k = p) := fun hh => h hh.symm
      simp [lookupPC, List.find?, this, h]
  | cons q0 m1 ih =>
    intro k v p
    by_cases h0 : q0.1 = p
    · simp [lookupPC, List.find?, h0]
    · simp only [List.cons_append]
      rw [show lookupPC ((q0 :: (m1 ++ [(k, v)]))) p =
        lookupPC (m1 ++ [(k, v)]) p from by simp [lookupPC, List.find?, h0]]
      rw [show lookupPC (q0 :: m1) p = lookupPC m1 p from by
        simp [lookupPC, List.find?, h0]]
      exact ih k v p

theorem lookupPC_setPC (m : List (List Nat × Nat)) (k : List Nat) (v : Nat) (p : List Nat) :
    lookupPC (setPC m k v) p = if p = k then some v else lookupPC m p := by
  rcases hf : m.find? (fun q => decide (q.1 = k)) with _ | q
  · rw [show setPC m k v = m ++ [(k, v)] from by simp [setPC, hf]]
    rw [lookupPC_append_one]
    have hmk : lookupPC m k = none := by simp [lookupPC, hf]
    by_cases h : p = k
    · subst h
      rw [hmk]
    · rcases hl : lookupPC m p with _ | w
      · simp [h]
      · simp [h]
  · rw [show setPC m k v = m.map (fun q => if q.1 = k then (k, v) else q) from by
      simp [setPC, hf]]
    by_cases h : p = k
    · subst h
      rw [lookup_map_repl_same m (by simp [hf])]
      simp
    · rw [lookup_map_repl_other h m]
      simp [h]

theorem lookupStr_append_one :
    ∀ (m : List (String × Nat)) (k : String) (v : Nat) (p : String),
      lookupStr (m ++ [(k, v)]) p =
        match lookupStr m p with
        | some w => some w
        | none => if p = k then some v else none := by
  intro m
  induction m with
  | nil =>
    intro k v p
    by_cases h : p = k
    · simp [lookupStr, List.find?, h]
    · have : ¬ (k = p) := fun hh => h hh.symm
      simp [lookupStr, List.find?, this, h]
  | cons q0 m1 ih =>
    intro k v p
    by_cases h0 : q0.1 = p
    · simp [lookupStr, List.find?, h0]
    · simp only [List.cons_append]
      rw [show lookupStr ((q0 :: (m1 ++ [(k, v)]))) p =
        lookupStr (m1 ++ [(k, v)]) p from by simp [lookupStr, List.find?, h0]]
      rw [show lookupStr (q0 :: m1) p = lookupStr m1 p from by
        simp [lookupStr, List.find?, h0]]
      exact ih k v p

/-! ## Lemmas about `distinctTexts`, `countAt`, `dCount` -/

theorem distinctTexts_foldl_mem :
    ∀ (rs : List LogRecord) (acc : List String) (s : String),
      (s ∈ rs.foldl (fun acc rr => if rr.2 ∈ acc then acc else acc ++ [rr.2]) acc) ↔
        (s ∈ acc ∨ ∃ rr ∈ rs, rr.2 = s) := by
  intro rs
  induction rs with
  | nil => intro acc s; simp
  | cons r rest ih =>
    intro acc s
    simp only [List.foldl_cons]
    rw [ih]
    by_cases h : r.2 ∈ acc
    · simp only [if_pos h]
      constructor
      · intro hh
        rcases hh with hh | hh
        · exact Or.inl hh
        · exact Or.inr (by rcases hh with ⟨rr, h1, h2⟩; exact ⟨rr, List.mem_cons_of_mem _ h1, h2⟩)
      · intro hh
        rcases hh with hh | ⟨rr, h1, h2⟩
        · exact Or.inl hh
        · rcases List.mem_cons.mp h1 with rfl | h1
          · exact Or.inl (h2 ▸ h)
          · exact Or.inr ⟨rr, h1, h2⟩
    · simp only [if_neg h, List.mem_append, List.mem_singleton]
      constructor
      · intro hh
        rcases hh with (hh | hh) | hh
        · exact Or.inl hh
        · exact Or.inr ⟨r, List.mem_cons_self _ _, hh.symm⟩
        · exact Or.inr (by rcases hh with ⟨rr, h1, h2⟩; exact ⟨rr, List.mem_cons_of_mem _ h1, h2⟩)
      · intro hh
        rcases hh with hh | ⟨rr, h1, h2⟩
        · exact Or.inl (Or.inl hh)
        · rcases List.mem_cons.mp h1 with rfl | h1
          · exact Or.inl (Or.inr h2.symm)
          · exact Or.inr ⟨rr, h1, h2⟩

theorem mem_distinctTexts {rs : List LogRecord} {s : String} :
    s ∈ distinctTexts rs ↔ ∃ rr ∈ rs, rr.2 = s := by
  rw [distinctTexts, distinctTexts_foldl_mem]
  simp

theorem distinctTexts_foldl_nodup :
    ∀ (rs : List LogRecord) (acc : List String), acc.Nodup →
      (rs.foldl (fun acc rr => if rr.2 ∈ acc then acc else acc ++ [rr.2]) acc).Nodup := by
  intro rs
  induction rs with
  | nil => intro acc h; simpa using h
  | cons r rest ih =>
    intro acc h
    simp only [List.foldl_cons]
    by_cases hm : r.2 ∈ acc
    · rw [if_pos hm]
      exact ih acc h
    · rw [if_neg hm]
      refine ih _ ?_
      refine List.nodup_append.mpr ⟨h, List.nodup_singleton _, ?_⟩
      intro a ha hb
      rcases List.mem_singleton.mp hb with rfl
      exact hm ha

theorem nodup_distinctTexts (rs : List LogRecord) : (distinctTexts rs).Nodup :=
  distinctTexts_foldl_nodup rs [] List.nodup_nil

theorem distinctTexts_append (rs : List LogRecord) (r : LogRecord) :
    distinctTexts (rs ++ [r]) =
      if r.2 ∈ distinctTexts rs then distinctTexts rs else distinctTexts rs ++ [r.2] := by
  simp [distinctTexts, List.foldl_append]

theorem countAt_append (rs : List LogRecord) (r : LogRecord) (p : List Nat) (s : String) :
    countAt (rs ++ [r]) p s =
      countAt rs p s + (if p <+: digitsOf r.1 ∧ r.2 = s then 1 else 0) := by
  by_cases h : p <+: digitsOf r.1 ∧ r.2 = s
  · simp [countAt, List.filter_append, h]
  · simp [countAt, List.filter_append, h]

theorem countAt_pos {rs : List LogRecord} {p : List Nat} {s : String} :
    0 < countAt rs p s ↔ ∃ rr ∈ rs, p <+: digitsOf rr.1 ∧ rr.2 = s := by
  rw [countAt, List.length_pos]
  constructor
  · intro h
    rcases List.exists_mem_of_ne_nil _ h with ⟨rr, hrr⟩
    rcases List.mem_filter.mp hrr with ⟨h1, h2⟩
    exact ⟨rr, h1, by simpa using h2⟩
  · intro ⟨rr, h1, h2⟩ hnil
    have : rr ∈ rs.filter (fun rr => decide (p <+: digitsOf rr.1 ∧ rr.2 = s)) :=
      List.mem_filter.mpr ⟨h1, by simpa using h2⟩
    rw [hnil] at this
    simp at this

theorem countAt_eq_zero {rs : List LogRecord} {p : List Nat} {s : String}
    (h : ∀ rr ∈ rs, ¬ (p <+: digitsOf rr.1 ∧ rr.2 = s)) : countAt rs p s = 0 := by
  by_contra hc
  rcases countAt_pos.mp (Nat.pos_of_ne_zero hc) with ⟨rr, h1, h2⟩
  exact h rr h1 h2

theorem countAt_zero_of_not_mem {rs : List LogRecord} {p : List Nat} {s : String}
    (h : ¬ s ∈ distinctTexts rs) : countAt rs p s = 0 := by
  refine countAt_eq_zero ?_
  intro rr hrr hand
  exact h (mem_distinctTexts.mpr ⟨rr, hrr, hand.2⟩)

theorem countAt_zero_of_no_reach {rs : List LogRecord} {p : List Nat}
    (h : ¬ ∃ rr ∈ rs, p <+: digitsOf rr.1) (s : String) : countAt rs p s = 0 := by
  refine countAt_eq_zero ?_
  intro rr hrr hand
  exact h ⟨rr, hrr, hand.1⟩

theorem mem_dCount_set {rs : List LogRecord} {p : List Nat} {s : String} :
    s ∈ ((rs.filter (fun rr => decide (p <+: digitsOf rr.1))).map (fun rr => rr.2)).toFinset ↔
      0 < countAt rs p s := by
  rw [countAt_pos, List.mem_toFinset, List.mem_map]
  constructor
  · intro ⟨rr, hrr, hs⟩
    rcases List.mem_filter.mp hrr with ⟨h1, h2⟩
    exact ⟨rr, h1, by simpa using h2, hs⟩
  · intro ⟨rr, h1, h2, hs⟩
    exact ⟨rr, List.mem_filter.mpr ⟨h1, by simpa using h2⟩, hs⟩

theorem dCount_append (rs : List LogRecord) (r : LogRecord) (p : List Nat) :
    dCount (rs ++ [r]) p =
      dCount rs p + (if p <+: digitsOf r.1 ∧ countAt rs p r.2 = 0 then 1 else 0) := by
  by_cases hpre : p <+: digitsOf r.1
  · have hfil : (rs ++ [r]).filter (fun rr => decide (p <+: digitsOf rr.1)) =
        rs.filter (fun rr => decide (p <+: digitsOf rr.1)) ++ [r] := by
      simp [List.filter_append, hpre]
    by_cases hc : countAt rs p r.2 = 0
    · have hnotin : ¬ r.2 ∈ ((rs.filter (fun rr => decide (p <+: digitsOf rr.1))).map
          (fun rr => rr.2)).toFinset := by
        rw [mem_dCount_set, hc]
        simp
      simp only [dCount, hfil, List.map_append, List.map_singleton]
      rw [List.toFinset_append]
      simp only [List.toFinset_cons, List.toFinset_nil, insert_emptyc_eq]
      rw [Finset.union_comm]
      rw [Finset.card_union_of_disjoint (by simpa using hnotin)]
      simp only [Finset.card_singleton]
      rw [if_pos ⟨hpre, hc⟩]
      omega
    · have hin : r.2 ∈ ((rs.filter (fun rr => decide (p <+: digitsOf rr.1))).map
          (fun rr => rr.2)).toFinset := by
        rw [mem_dCount_set]
        exact Nat.pos_of_ne_zero hc
      simp only [dCount, hfil, List.map_append, List.map_singleton]
      rw [List.toFinset_append]
      simp only [List.toFinset_cons, List.toFinset_nil, insert_emptyc_eq]
      rw [show (((rs.filter (fun rr => decide (p <+: digitsOf rr.1))).map
          (fun rr => rr.2)).toFinset ∪ {r.2}) =
          ((rs.filter (fun rr => decide (p <+: digitsOf rr.1))).map
          (fun rr => rr.2)).toFinset from
        Finset.union_eq_left.mpr (Finset.singleton_subset_iff.mpr hin)]
      simp [hpre, hc]
  · have hfil : (rs ++ [r]).filter (fun rr => decide (p <+: digitsOf rr.1)) =
        rs.filter (fun rr => decide (p <+: digitsOf rr.1)) := by
      simp [List.filter_append, hpre]
    simp [dCount, hfil, hpre]

theorem dCount_zero_of_no_reach {rs : List LogRecord} {p : List Nat}
    (h : ¬ ∃ rr ∈ rs, p <+: digitsOf rr.1) : dCount rs p = 0 := by
  have hfil : rs.filter (fun rr => decide (p <+: digitsOf rr.1)) = [] := by
    rw [List.filter_eq_nil_iff]
    intro rr hrr
    simp only [decide_eq_true_eq]
    intro hpre
    exact h ⟨rr, hrr, hpre⟩
  simp [dCount, hfil]

theorem dCount_mono_extend (rs : List LogRecord) (p : List Nat) (d : Nat) :
    dCount rs (p ++ [d]) ≤ dCount rs p := by
  apply Finset.card_le_card
  intro s hs
  rw [mem_dCount_set] at hs ⊢
  rcases countAt_pos.mp hs with ⟨rr, h1, h2, h3⟩
  exact countAt_pos.mpr ⟨rr, h1, (List.prefix_append p [d]).trans h2, h3⟩

/-! ## Prefix, digit, and `fOf` lemmas -/

theorem prefix_append_cancel {q a b : List Nat} : (q ++ a) <+: (q ++ b) ↔ a <+: b := by
  constructor
  · intro h
    rcases h with ⟨t, ht⟩
    refine ⟨t, ?_⟩
    rw [List.append_assoc] at ht
    exact List.append_cancel_left ht
  · intro h
    rcases h with ⟨t, ht⟩
    exact ⟨t, by rw [List.append_assoc, ht]⟩

theorem prefix_snoc_iff {α : Type} {p q : List α} {d : α} :
    p <+: q ++ [d] ↔ p <+: q ∨ p = q ++ [d] := by
  constructor
  · intro h
    have hlen := h.length_le
    simp only [List.length_append, List.length_singleton] at hlen
    by_cases he : p.length = q.length + 1
    · right
      exact List.eq_of_prefix_of_length_eq h (by simp [he])
    · left
      have hle : p.length ≤ q.length := by omega
      exact (List.isPrefix_append_of_length hle).mp h
  · intro h
    rcases h with h | rfl
    · exact h.trans (List.prefix_append q [d])
    · exact List.prefix_rfl

theorem not_snoc_prefix_self {q : List Nat} {d : Nat} : ¬ (q ++ [d]) <+: q := by
  intro h
  have := h.length_le
  simp at this

theorem charDigit_lt_ten (c : Char) (h : c.isDigit = true) : charDigit c < 10 := by
  simp only [Char.isDigit, Bool.and_eq_true, decide_eq_true_eq, ge_iff_le] at h
  have h3 : c.val.toNat ≤ 57 := UInt32.toNat_le_of_le (by norm_num) h.2
  simp only [charDigit, Char.toNat]
  omega

theorem digitsOf_lt_ten (s : String) : ∀ d ∈ digitsOf s, d < 10 := by
  intro d hd
  rcases List.mem_map.mp hd with ⟨c, hc, rfl⟩
  rcases List.mem_filter.mp hc with ⟨_, hdig⟩
  exact charDigit_lt_ten c hdig

theorem distinctTexts_get?_append {rs : List LogRecord} {r : LogRecord} {i : Nat}
    (h : i < (distinctTexts rs).length) :
    (distinctTexts (rs ++ [r])).get? i = (distinctTexts rs).get? i := by
  rw [distinctTexts_append]
  by_cases hm : r.2 ∈ distinctTexts rs
  · rw [if_pos hm]
  · rw [if_neg hm]
    exact List.get?_append h

theorem fOf_eval {rs : List LogRecord} {r : LogRecord} {qid : Nat}
    (hq : (distinctTexts (rs ++ [r])).get? qid = some r.2) (p : List Nat) :
    fOf rs p qid = countAt rs p r.2 := by
  rcases hold : (distinctTexts rs).get? qid with _ | s
  · have hlen : (distinctTexts rs).length ≤ qid := List.get?_eq_none.mp hold
    have hnm : ¬ r.2 ∈ distinctTexts rs := by
      intro hm
      rw [distinctTexts_append, if_pos hm] at hq
      rw [hq] at hold
      exact Option.noConfusion hold
    rw [fOf, hold, countAt_zero_of_not_mem hnm]
  · have hlt : qid < (distinctTexts rs).length := by
      by_contra hc
      rw [List.get?_eq_none.mpr (Nat.le_of_not_lt hc)] at hold
      exact Option.noConfusion hold
    rw [distinctTexts_get?_append hlt, hold] at hq
    rcases Option.some.injEq _ _ ▸ hq with rfl
    rw [fOf, hold]

theorem fOf_append_not_pre {rs : List LogRecord} {r : LogRecord} {p : List Nat}
    (h : ¬ p <+: digitsOf r.1) : fOf (rs ++ [r]) p = fOf rs p := by
  funext id
  rcases hnew : (distinctTexts (rs ++ [r])).get? id with _ | s
  · have hlen : (distinctTexts (rs ++ [r])).length ≤ id := List.get?_eq_none.mp hnew
    have hlen2 : (distinctTexts rs).length ≤ id := by
      refine le_trans ?_ hlen
      rw [distinctTexts_append]
      by_cases hm : r.2 ∈ distinctTexts rs
      · rw [if_pos hm]
      · rw [if_neg hm]
        simp
    rw [fOf, fOf, hnew, List.get?_eq_none.mpr hlen2]
  · rw [fOf, fOf, hnew]
    have hcnt : countAt (rs ++ [r]) p s = countAt rs p s := by
      rw [countAt_append]
      simp [h]
    rcases hold : (distinctTexts rs).get? id with _ | s2
    · -- id is the freshly added text r.2
      have hlen : (distinctTexts rs).length ≤ id := List.get?_eq_none.mp hold
      have hnm : ¬ r.2 ∈ distinctTexts rs := by
        intro hm
        rw [distinctTexts_append, if_pos hm] at hnew
        rw [List.get?_eq_none.mpr hlen] at hnew
        exact Option.noConfusion hnew
      have hs : s = r.2 := by
        rw [distinctTexts_append, if_neg hnm] at hnew
        rcases Nat.lt_or_ge id (distinctTexts rs).length with hlt | hge
        · omega
        · have : id = (distinctTexts rs).length := by
            have hq := hnew
            have hidlt : id < (distinctTexts rs).length + 1 := by
              by_contra hc
              rw [List.get?_eq_none.mpr (by simpa using Nat.le_of_not_lt hc)] at hq
              exact Option.noConfusion hq
            omega
          subst this
          rw [List.get?_concat_length] at hnew
          exact (Option.some.injEq _ _ ▸ hnew).symm
      subst hs
      show countAt (rs ++ [r]) p r.2 = 0
      rw [hcnt]
      exact countAt_zero_of_not_mem hnm
    · -- id is an old text, unchanged
      have hlt : id < (distinctTexts rs).length := by
        by_contra hc
        rw [List.get?_eq_none.mpr (Nat.le_of_not_lt hc)] at hold
        exact Option.noConfusion hold
      rw [distinctTexts_get?_append hlt, hold] at hnew
      rcases Option.some.injEq _ _ ▸ hnew with rfl
      exact hcnt

theorem fOf_append_pre {rs : List LogRecord} {r : LogRecord} {p : List Nat} {qid : Nat}
    (hp : p <+: digitsOf r.1)
    (hq : (distinctTexts (rs ++ [r])).get? qid = some r.2) :
    fOf (rs ++ [r]) p = bumpF (fOf rs p) qid := by
  funext id
  by_cases hid : id = qid
  · subst hid
    rw [fOf, hq, bumpF]
    simp only [if_pos rfl]
    rw [fOf_eval hq p, countAt_append]
    simp [hp]
  · rw [bumpF]
    simp only [if_neg hid]
    rcases hnew : (distinctTexts (rs ++ [r])).get? id with _ | s
    · have hlen : (distinctTexts (rs ++ [r])).length ≤ id := List.get?_eq_none.mp hnew
      have hlen2 : (distinctTexts rs).length ≤ id := by
        refine le_trans ?_ hlen
        rw [distinctTexts_append]
        by_cases hm : r.2 ∈ distinctTexts rs
        · rw [if_pos hm]
        · rw [if_neg hm]
          simp
      rw [fOf, fOf, hnew, List.get?_eq_none.mpr hlen2]
    · have hs_ne : s ≠ r.2 := by
        intro hse
        subst hse
        have hlt2 : id < (distinctTexts (rs ++ [r])).length := by
          by_contra hc
          rw [List.get?_eq_none.mpr (Nat.le_of_not_lt hc)] at hnew
          exact Option.noConfusion hnew
        have heq : (distinctTexts (rs ++ [r])).get? id
            = (distinctTexts (rs ++ [r])).get? qid := by
          rw [hnew, hq]
        exact hid (List.get?_inj hlt2 (nodup_distinctTexts (rs ++ [r])) heq)
      rw [fOf, fOf, hnew]
      have hcnt : countAt (rs ++ [r]) p s = countAt rs p s := by
        rw [countAt_append]
        have hno : ¬ (p <+: digitsOf r.1 ∧ r.2 = s) := by
          intro hand
          exact hs_ne hand.2.symm
        simp [hno]
      rcases hold : (distinctTexts rs).get? id with _ | s2
      · -- then s would have to be the new text r.2, contradiction
        have hlen : (distinctTexts rs).length ≤ id := List.get?_eq_none.mp hold
        have hnm : ¬ r.2 ∈ distinctTexts rs := by
          intro hm
          rw [distinctTexts_append, if_pos hm] at hnew
          rw [List.get?_eq_none.mpr hlen] at hnew
          exact Option.noConfusion hnew
        exfalso
        rw [distinctTexts_append, if_neg hnm] at hnew
        have hidlt : id < (distinctTexts rs).length + 1 := by
          by_contra hc
          rw [List.get?_eq_none.mpr (by simpa using Nat.le_of_not_lt hc)] at hnew
          exact Option.noConfusion hnew
        have hideq : id = (distinctTexts rs).length := by omega
        subst hideq
        rw [List.get?_concat_length] at hnew
        exact hs_ne (Option.some.injEq _ _ ▸ hnew).symm
      · have hlt : id < (distinctTexts rs).length := by
          by_contra hc
          rw [List.get?_eq_none.mpr (Nat.le_of_not_lt hc)] at hold
          exact Option.noConfusion hold
        rw [distinctTexts_get?_append hlt, hold] at hnew
        rcases Option.some.injEq _ _ ▸ hnew with rfl
        exact hcnt

/-! ## Trie node and store manipulation lemmas -/

theorem walk_cons_eq (n : TrieNode) (d : Nat) (rest : List Nat) :
    walk n (d :: rest) = match getChild n d with
      | none => none
      | some c => walk c rest := rfl

theorem getChild_empty (d : Nat) : getChild TrieNode.empty d = none := by
  rcases h : (TrieNode.empty.children).get? d with _ | c
  · simp only [getChild]
    rw [h]
  · have hc : c = none := by
      have hm := List.get?_mem h
      have hch : TrieNode.empty.children = List.replicate 10 none := rfl
      rw [hch] at hm
      exact List.eq_of_mem_replicate hm
    simp only [getChild]
    rw [h]
    exact hc

theorem walk_empty (p : List Nat) (hp : p ≠ []) : walk TrieNode.empty p = none := by
  cases p with
  | nil => exact absurd rfl hp
  | cons d rest => rw [walk_cons_eq, getChild_empty]

theorem children_setChild (node : TrieNode) (d : Nat) (c : TrieNode) :
    (setChild node d c).children = node.children.set d (some c) := rfl

theorem distinct_setChild (node : TrieNode) (d : Nat) (c : TrieNode) :
    (setChild node d c).distinct = node.distinct := rfl

theorem cache_setChild (node : TrieNode) (d : Nat) (c : TrieNode) :
    (setChild node d c).top_queries_cache = node.top_queries_cache := rfl

theorem getChild_setChild_self {node : TrieNode} {d : Nat} (c : TrieNode)
    (hd : d < node.children.length) : getChild (setChild node d c) d = some c := by
  simp only [getChild, children_setChild]
  rw [List.get?_set_eq_of_lt _ hd]

theorem getChild_setChild_ne {node : TrieNode} {d e : Nat} (c : TrieNode) (h : e ≠ d) :
    getChild (setChild node d c) e = getChild node e := by
  simp only [getChild, children_setChild]
  rw [List.get?_set_ne _ _ (fun hh => h hh.symm)]

theorem walk_eq_of_children_eq {n1 n2 : TrieNode} (h : n1.children = n2.children)
    (d : Nat) (rest : List Nat) : walk n1 (d :: rest) = walk n2 (d :: rest) := by
  rw [walk_cons_eq, walk_cons_eq, show getChild n1 d = getChild n2 d from by
    simp only [getChild, h]]

theorem length_children_setChild (node : TrieNode) (d : Nat) (c : TrieNode) :
    (setChild node d c).children.length = node.children.length := by
  rw [children_setChild, List.length_set]

theorem mk_children (ch : List (Option TrieNode)) (x : Nat) (cq : List TopQuery) :
    (TrieNode.mk ch x cq).children = ch := rfl

theorem mk_distinct (ch : List (Option TrieNode)) (x : Nat) (cq : List TopQuery) :
    (TrieNode.mk ch x cq).distinct = x := rfl

theorem mk_cache (ch : List (Option TrieNode)) (x : Nat) (cq : List TopQuery) :
    (TrieNode.mk ch x cq).top_queries_cache = cq := rfl

theorem setPCAt_get?_self : ∀ (l : List QueryData) (i : Nat) (pc : List (List Nat × Nat))
    (qd : QueryData), l.get? i = some qd →
    (setPCAt l i pc).get? i = some ⟨qd.query_text, pc⟩ := by
  intro l
  induction l with
  | nil => intro i pc qd h; simp at h
  | cons q0 rest ih =>
    intro i pc qd h
    cases i with
    | zero =>
      simp only [List.get?] at h
      rcases Option.some.injEq _ _ ▸ h with rfl
      rfl
    | succ j =>
      have h2 : rest.get? j = some qd := h
      show (setPCAt rest j pc).get? j = some ⟨qd.query_text, pc⟩
      exact ih j pc qd h2

theorem setPCAt_get?_ne : ∀ (l : List QueryData) (i j : Nat) (pc : List (List Nat × Nat)),
    j ≠ i → (setPCAt l i pc).get? j = l.get? j := by
  intro l
  induction l with
  | nil => intro i j pc _; rfl
  | cons q0 rest ih =>
    intro i j pc hne
    cases i with
    | zero =>
      cases j with
      | zero => exact absurd rfl hne
      | succ k => rfl
    | succ i2 =>
      cases j with
      | zero => rfl
      | succ k =>
        show (setPCAt rest i2 pc).get? k = rest.get? k
        exact ih i2 k pc (fun h => hne (by rw [h]))

theorem setPCAt_map_text : ∀ (l : List QueryData) (i : Nat) (pc : List (List Nat × Nat)),
    (setPCAt l i pc).map QueryData.query_text = l.map QueryData.query_text := by
  intro l
  induction l with
  | nil => intro i pc; rfl
  | cons q0 rest ih =>
    intro i pc
    cases i with
    | zero => rfl
    | succ j =>
      show QueryData.query_text q0 :: (setPCAt rest j pc).map QueryData.query_text
        = QueryData.query_text q0 :: rest.map QueryData.query_text
      rw [ih j pc]

theorem queryStore_get_nat {s : QueryStore} {i : Nat} {qd : QueryData}
    (h : s.queries_data.get? i = some qd) : QueryStore.get s (i : Int) = .ok qd := by
  have h0 : (0 : Int) ≤ (i : Int) := Int.ofNat_nonneg i
  have hpy : pyIndex s.queries_data (i : Int) = some qd := by
    rw [pyIndex, if_pos h0, Int.toNat_natCast]
    exact h
  simp only [QueryStore.get]
  rw [hpy]

/-! ## `expMid` lemmas -/

theorem expMid_nil (rs : List LogRecord) (s : String) (p : List Nat) :
    expMid rs s [] p =
      if p ≠ [] ∧ 0 < countAt rs p s then some (countAt rs p s) else none := by
  by_cases hp : p = []
  · subst hp
    simp [expMid]
  · have hnp : ¬ (p <+: ([] : List Nat)) := fun h => hp (List.prefix_nil.mp h)
    simp [expMid, midCount, hnp, hp]

theorem expMid_full (rs : List LogRecord) (r : LogRecord) (p : List Nat) :
    expMid rs r.2 (digitsOf r.1) p = expMid (rs ++ [r]) r.2 [] p := by
  by_cases hp : p = []
  · subst hp
    simp [expMid]
  · have hnp : ¬ (p <+: ([] : List Nat)) := fun h => hp (List.prefix_nil.mp h)
    have hm : midCount rs r.2 (digitsOf r.1) p = midCount (rs ++ [r]) r.2 [] p := by
      rw [midCount, midCount, countAt_append, if_neg hnp]
      by_cases hpre : p <+: digitsOf r.1
      · simp [hpre]
      · simp [hpre]
    rw [expMid, expMid, hm]

theorem expMid_snoc_ne {rs : List LogRecord} {s : String} {q : List Nat} {d : Nat}
    {p : List Nat} (h : p ≠ q ++ [d]) :
    expMid rs s (q ++ [d]) p = expMid rs s q p := by
  have hiff : (p <+: q ++ [d]) ↔ (p <+: q) := by
    rw [prefix_snoc_iff]
    constructor
    · intro hh
      rcases hh with hh | hh
      · exact hh
      · exact absurd hh h
    · exact Or.inl
  simp only [expMid, midCount, hiff]

theorem expMid_snoc_self (rs : List LogRecord) (s : String) (q : List Nat) (d : Nat) :
    expMid rs s (q ++ [d]) (q ++ [d]) = some (countAt rs (q ++ [d]) s + 1) := by
  have h1 : (q ++ [d] : List Nat) ≠ [] := by simp
  simp [expMid, midCount, h1, List.prefix_rfl]

/-! ## The specification of one `add` digit walk -/

theorem addDigits_cons {qid d : Nat} {rest q : List Nat} {pc : List (List Nat × Nat)}
    {node child : TrieNode} {nc dist1 : Nat}
    (hch : (match getChild node d with
      | some c => c
      | none => TrieNode.empty) = child)
    (hnc : (match lookupPC pc (q ++ [d]) with
      | none => 1
      | some c => c + 1) = nc)
    (hdist : (match lookupPC pc (q ++ [d]) with
      | none => child.distinct + 1
      | some _ => child.distinct) = dist1) :
    addDigits qid (d :: rest) q pc node =
      match TopQueriesCache.update child.top_queries_cache qid nc with
      | .error e => .error e
      | .ok cache1 =>
        match addDigits qid rest (q ++ [d]) (setPC pc (q ++ [d]) nc)
            (TrieNode.mk child.children dist1 cache1) with
        | .error e => .error e
        | .ok (child2, pc2) => .ok (setChild node d child2, pc2) := by
  subst hch
  subst hnc
  subst hdist
  rfl

theorem addDigits_spec (rs : List LogRecord) (r : LogRecord) (qid : Nat)
    (hqid : (distinctTexts (rs ++ [r])).get? qid = some r.2) :
    ∀ (ds q : List Nat) (pc : List (List Nat × Nat)) (node : TrieNode),
    digitsOf r.1 = q ++ ds →
    (∀ d ∈ ds, d < 10) →
    (∀ p n1, walk node p = some n1 → n1.children.length = 10) →
    (∀ p, p ≠ [] → ((walk node p).isSome ↔ ∃ rr ∈ rs, (q ++ p) <+: digitsOf rr.1)) →
    (∀ p n1, p ≠ [] → walk node p = some n1 →
      n1.distinct = dCount rs (q ++ p) ∧
      CacheInv (fOf rs (q ++ p)) n1.top_queries_cache) →
    (q ≠ [] → node.distinct = dCount (rs ++ [r]) q ∧
      CacheInv (fOf (rs ++ [r]) q) node.top_queries_cache) →
    (∀ p, lookupPC pc p = expMid rs r.2 q p) →
    ∃ node2 pc2, addDigits qid ds q pc node = .ok (node2, pc2) ∧
      (∀ p n1, walk node2 p = some n1 → n1.children.length = 10) ∧
      (∀ p, p ≠ [] →
        ((walk node2 p).isSome ↔ ∃ rr ∈ rs ++ [r], (q ++ p) <+: digitsOf rr.1)) ∧
      (∀ p n1, q ++ p ≠ [] → walk node2 p = some n1 →
        n1.distinct = dCount (rs ++ [r]) (q ++ p) ∧
        CacheInv (fOf (rs ++ [r]) (q ++ p)) n1.top_queries_cache) ∧
      (∀ p, lookupPC pc2 p = expMid rs r.2 (q ++ ds) p) := by
  intro ds
  induction ds with
  | nil =>
    intro q pc node hfull hdig hlen hexists hsub hown hpc
    have hnot : ∀ p : List Nat, p ≠ [] → ¬ ((q ++ p) <+: digitsOf r.1) := by
      intro p hp hco
      rw [hfull, List.append_nil] at hco
      have h2 : (q ++ p) <+: (q ++ ([] : List Nat)) := by
        rw [List.append_nil]
        exact hco
      exact hp (List.prefix_nil.mp (prefix_append_cancel.mp h2))
    refine ⟨node, pc, rfl, hlen, ?_, ?_, ?_⟩
    · intro p hp
      rw [hexists p hp]
      constructor
      · intro h
        rcases h with ⟨rr, h1, h2⟩
        exact ⟨rr, List.mem_append_left _ h1, h2⟩
      · intro h
        rcases h with ⟨rr, h1, h2⟩
        rcases List.mem_append.mp h1 with h1 | h1
        · exact ⟨rr, h1, h2⟩
        · rcases List.mem_singleton.mp h1 with rfl
          exact absurd h2 (hnot p hp)
    · intro p n1 hqp hw
      by_cases hp : p = []
      · subst hp
        rcases Option.some.inj hw with rfl
        simp only [List.append_nil] at hqp ⊢
        exact hown hqp
      · have hdc_eq : dCount (rs ++ [r]) (q ++ p) = dCount rs (q ++ p) := by
          rw [dCount_append, if_neg (fun hh => hnot p hp hh.1), Nat.add_zero]
        have hfof_eq : fOf (rs ++ [r]) (q ++ p) = fOf rs (q ++ p) :=
          fOf_append_not_pre (hnot p hp)
        rw [hdc_eq, hfof_eq]
        exact hsub p n1 hp hw
    · intro p
      rw [hpc p, List.append_nil]
  | cons d rest ih =>
    intro q pc node hfull hdig hlen hexists hsub hown hpc
    have hd10 : d < 10 := hdig d (List.mem_cons_self _ _)
    have hfull' : digitsOf r.1 = (q ++ [d]) ++ rest := by
      rw [hfull, List.append_cons]
    have hq'pre : (q ++ [d]) <+: digitsOf r.1 := by
      rw [hfull']
      exact List.prefix_append _ _
    have hnode_len : node.children.length = 10 := hlen [] node rfl
    have hd_lt : d < node.children.length := by
      rw [hnode_len]
      exact hd10
    -- facts about the child node the loop steps into
    obtain ⟨child, hchild_eq, F1, F2, F3, F4d, F4c⟩ :
        ∃ child : TrieNode,
          (match getChild node d with
            | some c => c
            | none => TrieNode.empty) = child ∧
          (∀ p n1, walk child p = some n1 → n1.children.length = 10) ∧
          (∀ p, p ≠ [] →
            ((walk child p).isSome ↔ ∃ rr ∈ rs, ((q ++ [d]) ++ p) <+: digitsOf rr.1)) ∧
          (∀ p n1, p ≠ [] → walk child p = some n1 →
            n1.distinct = dCount rs ((q ++ [d]) ++ p) ∧
            CacheInv (fOf rs ((q ++ [d]) ++ p)) n1.top_queries_cache) ∧
          child.distinct = dCount rs (q ++ [d]) ∧
          CacheInv (fOf rs (q ++ [d])) child.top_queries_cache := by
      rcases hch : getChild node d with _ | c0
      · -- the child is created fresh
        have hnoreach : ¬ ∃ rr ∈ rs, (q ++ [d]) <+: digitsOf rr.1 := by
          intro hex
          have hs := (hexists [d] (by simp)).mpr hex
          rw [walk_cons_eq, hch] at hs
          simp at hs
        have hnoreach2 : ∀ p : List Nat, ¬ ∃ rr ∈ rs, ((q ++ [d]) ++ p) <+: digitsOf rr.1 := by
          intro p hex
          rcases hex with ⟨rr, h1, h2⟩
          exact hnoreach ⟨rr, h1, (List.prefix_append _ _).trans h2⟩
        have hf0 : ∀ id, fOf rs (q ++ [d]) id = 0 := by
          intro id
          rw [fOf]
          cases hgt : (distinctTexts rs).get? id with
          | none => rfl
          | some s => exact countAt_zero_of_no_reach hnoreach s
        refine ⟨TrieNode.empty, rfl, ?_, ?_, ?_, ?_, ?_⟩
        · intro p n1 hw
          cases p with
          | nil =>
            rcases Option.some.inj hw with rfl
            rfl
          | cons e ps =>
            rw [walk_empty _ (by simp)] at hw
            exact Option.noConfusion hw
        · intro p hp
          rw [walk_empty p hp]
          simp only [Option.isSome_none, Bool.false_eq_true, false_iff]
          exact hnoreach2 p
        · intro p n1 hp hw
          rw [walk_empty p hp] at hw
          exact Option.noConfusion hw
        · rw [dCount_zero_of_no_reach hnoreach]
          rfl
        · refine ⟨?_, ?_, ?_, ?_, ?_⟩
          · intro tq htq
            exact absurd htq (List.not_mem_nil tq)
          · exact List.nodup_nil
          · exact List.Pairwise.nil
          · exact Nat.zero_le _
          · intro id hid _
            rw [hf0 id] at hid
            exact absurd hid (by simp)
      · -- the child already exists
        have hwd : ∀ p, walk node (d :: p) = walk c0 p := by
          intro p
          rw [walk_cons_eq, hch]
        refine ⟨c0, rfl, ?_, ?_, ?_, ?_, ?_⟩
        · intro p n1 hw
          refine hlen (d :: p) n1 ?_
          rw [hwd]
          exact hw
        · intro p hp
          have hiff := hexists (d :: p) (by simp)
          rw [hwd] at hiff
          rw [← List.append_cons]
          exact hiff
        · intro p n1 hp hw
          have hs := hsub (d :: p) n1 (by simp) (by rw [hwd]; exact hw)
          rw [← List.append_cons]
          exact hs
        · exact (hsub [d] c0 (by simp) (by rw [hwd]; rfl)).1
        · exact (hsub [d] c0 (by simp) (by rw [hwd]; rfl)).2
    have hchlen : child.children.length = 10 := F1 [] child rfl
    have hfeq : fOf rs (q ++ [d]) qid = countAt rs (q ++ [d]) r.2 := fOf_eval hqid _
    have hne_q' : (q ++ [d] : List Nat) ≠ [] := by simp
    have hmid : midCount rs r.2 q (q ++ [d]) = countAt rs (q ++ [d]) r.2 := by
      rw [midCount, if_neg not_snoc_prefix_self, Nat.add_zero]
    have hpcq : lookupPC pc (q ++ [d])
        = if 0 < countAt rs (q ++ [d]) r.2
          then some (countAt rs (q ++ [d]) r.2) else none := by
      rw [hpc (q ++ [d]), expMid, hmid]
      by_cases h0 : 0 < countAt rs (q ++ [d]) r.2
      · rw [if_pos ⟨hne_q', h0⟩, if_pos h0]
      · rw [if_neg (fun hh => h0 hh.2), if_neg h0]
    have hdc : dCount (rs ++ [r]) (q ++ [d])
        = dCount rs (q ++ [d]) + (if countAt rs (q ++ [d]) r.2 = 0 then 1 else 0) := by
      rw [dCount_append]
      congr 1
      by_cases h0 : countAt rs (q ++ [d]) r.2 = 0
      · rw [if_pos ⟨hq'pre, h0⟩, if_pos h0]
      · rw [if_neg (fun hh => h0 hh.2), if_neg h0]
    -- the values computed from the lookup
    obtain ⟨nc, dist1, hnc_eq, hdist_eq, hNC, hD1⟩ :
        ∃ nc dist1 : Nat,
          (match lookupPC pc (q ++ [d]) with
            | none => 1
            | some c => c + 1) = nc ∧
          (match lookupPC pc (q ++ [d]) with
            | none => child.distinct + 1
            | some _ => child.distinct) = dist1 ∧
          nc = fOf rs (q ++ [d]) qid + 1 ∧
          dist1 = dCount (rs ++ [r]) (q ++ [d]) := by
      rcases hlook : lookupPC pc (q ++ [d]) with _ | c
      · have hc0 : countAt rs (q ++ [d]) r.2 = 0 := by
          rw [hpcq] at hlook
          by_cases h0 : 0 < countAt rs (q ++ [d]) r.2
          · rw [if_pos h0] at hlook
            exact Option.noConfusion hlook
          · omega
        refine ⟨1, child.distinct + 1, rfl, rfl, ?_, ?_⟩
        · rw [hfeq, hc0]
        · rw [hdc, if_pos hc0, F4d]
      · have hcpos : c = countAt rs (q ++ [d]) r.2 ∧ 0 < countAt rs (q ++ [d]) r.2 := by
          rw [hpcq] at hlook
          by_cases h0 : 0 < countAt rs (q ++ [d]) r.2
          · rw [if_pos h0] at hlook
            exact ⟨(Option.some.inj hlook).symm, h0⟩
          · rw [if_neg h0] at hlook
            exact Option.noConfusion hlook
        refine ⟨c + 1, child.distinct, rfl, rfl, ?_, ?_⟩
        · rw [hfeq, hcpos.1]
        · rw [hdc, if_neg (Nat.pos_iff_ne_zero.mp hcpos.2), Nat.add_zero, F4d]
    -- the cache update succeeds and preserves the invariant
    obtain ⟨cache1, hupd, hcinv1⟩ := cacheInv_update F4c
    have hupd' : TopQueriesCache.update child.top_queries_cache qid nc = .ok cache1 := by
      rw [hNC]
      exact hupd
    have hcinv1' : CacheInv (fOf (rs ++ [r]) (q ++ [d])) cache1 := by
      rw [fOf_append_pre hq'pre hqid]
      exact hcinv1
    -- entry facts for the recursive call
    have hmkch : (TrieNode.mk child.children dist1 cache1).children = child.children := rfl
    have L1 : ∀ p n1, walk (TrieNode.mk child.children dist1 cache1) p = some n1 →
        n1.children.length = 10 := by
      intro p n1 hw
      cases p with
      | nil =>
        rcases Option.some.inj hw with rfl
        exact hchlen
      | cons e ps =>
        rw [walk_eq_of_children_eq hmkch] at hw
        exact F1 (e :: ps) n1 hw
    have E1 : ∀ p, p ≠ [] → ((walk (TrieNode.mk child.children dist1 cache1) p).isSome ↔
        ∃ rr ∈ rs, ((q ++ [d]) ++ p) <+: digitsOf rr.1) := by
      intro p hp
      cases p with
      | nil => exact absurd rfl hp
      | cons e ps =>
        rw [walk_eq_of_children_eq hmkch]
        exact F2 (e :: ps) hp
    have S1 : ∀ p n1, p ≠ [] → walk (TrieNode.mk child.children dist1 cache1) p = some n1 →
        n1.distinct = dCount rs ((q ++ [d]) ++ p) ∧
        CacheInv (fOf rs ((q ++ [d]) ++ p)) n1.top_queries_cache := by
      intro p n1 hp hw
      cases p with
      | nil => exact absurd rfl hp
      | cons e ps =>
        rw [walk_eq_of_children_eq hmkch] at hw
        exact F3 (e :: ps) n1 hp hw
    have O1 : (q ++ [d] : List Nat) ≠ [] →
        (TrieNode.mk child.children dist1 cache1).distinct = dCount (rs ++ [r]) (q ++ [d]) ∧
        CacheInv (fOf (rs ++ [r]) (q ++ [d]))
          (TrieNode.mk child.children dist1 cache1).top_queries_cache := by
      intro _
      refine ⟨?_, ?_⟩
      · rw [mk_distinct, hD1]
      · rw [mk_cache]
        exact hcinv1'
    have P1 : ∀ p, lookupPC (setPC pc (q ++ [d]) nc) p = expMid rs r.2 (q ++ [d]) p := by
      intro p
      rw [lookupPC_setPC]
      by_cases hp : p = q ++ [d]
      · subst hp
        rw [if_pos rfl, expMid_snoc_self, hNC, hfeq]
      · rw [if_neg hp, hpc p, expMid_snoc_ne hp]
    obtain ⟨child2, pc2, hrec, X1, X2, X3, X4⟩ :=
      ih (q ++ [d]) (setPC pc (q ++ [d]) nc) (TrieNode.mk child.children dist1 cache1)
        hfull' (fun e he => hdig e (List.mem_cons_of_mem _ he)) L1 E1 S1 O1 P1
    -- the prefix through a sibling digit is untouched by this record
    have hnot_sib : ∀ (e : Nat) (ps : List Nat), e ≠ d →
        ¬ ((q ++ e :: ps) <+: digitsOf r.1) := by
      intro e ps he hco
      rw [hfull] at hco
      rcases List.cons_prefix_iff.mp (prefix_append_cancel.mp hco) with ⟨rfl, _⟩
      exact he rfl
    refine ⟨setChild node d child2, pc2, ?_, ?_, ?_, ?_, ?_⟩
    · rw [addDigits_cons hchild_eq hnc_eq hdist_eq]
      simp only [hupd', hrec]
    · intro p n1 hw
      cases p with
      | nil =>
        rcases Option.some.inj hw with rfl
        rw [length_children_setChild]
        exact hnode_len
      | cons e ps =>
        by_cases he : e = d
        · subst he
          rw [walk_cons_eq, getChild_setChild_self child2 hd_lt] at hw
          exact X1 ps n1 hw
        · rw [walk_cons_eq, getChild_setChild_ne child2 he, ← walk_cons_eq] at hw
          exact hlen (e :: ps) n1 hw
    · intro p hp
      cases p with
      | nil => exact absurd rfl hp
      | cons e ps =>
        by_cases he : e = d
        · subst he
          rw [walk_cons_eq, getChild_setChild_self child2 hd_lt]
          cases ps with
          | nil =>
            constructor
            · intro _
              refine ⟨r, List.mem_append_right _ (List.mem_singleton_self r), ?_⟩
              exact hq'pre
            · intro _
              rfl
          | cons f fs =>
            have hx := X2 (f :: fs) (by simp)
            rw [List.append_cons q e (f :: fs)]
            exact hx
        · rw [walk_cons_eq, getChild_setChild_ne child2 he, ← walk_cons_eq]
          rw [hexists (e :: ps) (by simp)]
          constructor
          · intro h
            rcases h with ⟨rr, h1, h2⟩
            exact ⟨rr, List.mem_append_left _ h1, h2⟩
          · intro h
            rcases h with ⟨rr, h1, h2⟩
            rcases List.mem_append.mp h1 with h1 | h1
            · exact ⟨rr, h1, h2⟩
            · rcases List.mem_singleton.mp h1 with rfl
              exact absurd h2 (hnot_sib e ps he)
    · intro p n1 hqp hw
      cases p with
      | nil =>
        rcases Option.some.inj hw with rfl
        simp only [List.append_nil] at hqp ⊢
        have hq_own := hown hqp
        refine ⟨?_, ?_⟩
        · rw [distinct_setChild]
          exact hq_own.1
        · rw [cache_setChild]
          exact hq_own.2
      | cons e ps =>
        by_cases he : e = d
        · subst he
          rw [walk_cons_eq, getChild_setChild_self child2 hd_lt] at hw
          have hx := X3 ps n1 (by simp) hw
          rw [List.append_cons q e ps]
          exact hx
        · rw [walk_cons_eq, getChild_setChild_ne child2 he, ← walk_cons_eq] at hw
          have hdc_eq : dCount (rs ++ [r]) (q ++ e :: ps) = dCount rs (q ++ e :: ps) := by
            rw [dCount_append, if_neg (fun hh => hnot_sib e ps he hh.1), Nat.add_zero]
          have hfof_eq : fOf (rs ++ [r]) (q ++ e :: ps) = fOf rs (q ++ e :: ps) :=
            fOf_append_not_pre (hnot_sib e ps he)
          rw [hdc_eq, hfof_eq]
          exact hsub (e :: ps) n1 (by simp) hw
    · intro p
      rw [X4 p, ← List.append_cons]

/-! ## The invariant is preserved by `Trie.add` -/

theorem expMid_untouched {rs : List LogRecord} {r : LogRecord} {s : String}
    (hs : s ≠ r.2) (p : List Nat) : expMid rs s [] p = expMid (rs ++ [r]) s [] p := by
  have hcnt : countAt (rs ++ [r]) p s = countAt rs p s := by
    rw [countAt_append, if_neg (fun hh => hs hh.2.symm), Nat.add_zero]
  rw [expMid_nil, expMid_nil, hcnt]

theorem add_extend {rs : List LogRecord} {t : Trie} (r : LogRecord)
    (hinv : TrieInv rs t) (h14 : (digitsOf r.1).length = 14) :
    ∃ t2, Trie.add t r.1 r.2 = .ok t2 ∧ TrieInv (rs ++ [r]) t2 := by
  have hlen_texts : t.query_store.queries_data.length = (distinctTexts rs).length := by
    rw [← hinv.htexts, List.length_map]
  rcases hlk : lookupStr t.query_store.text_index r.2 with _ | qid
  · -- the text is new: a fresh id is allocated
    have hnm : ¬ r.2 ∈ distinctTexts rs := hinv.hidx_none r.2 hlk
    have hDT : distinctTexts (rs ++ [r]) = distinctTexts rs ++ [r.2] := by
      rw [distinctTexts_append, if_neg hnm]
    have hadd : QueryStore.add t.query_store r.2 = .ok (t.query_store.queries_data.length,
        { t.query_store with
          queries_data := t.query_store.queries_data ++ [⟨r.2, []⟩],
          text_index := t.query_store.text_index ++ [(r.2, t.query_store.queries_data.length)] }) := by
      rw [QueryStore.add, if_neg (by rw [hinv.hfin]; simp), hlk]
    have hqid' : (distinctTexts (rs ++ [r])).get? t.query_store.queries_data.length
        = some r.2 := by
      rw [hDT, hlen_texts, List.get?_concat_length]
    have hget_rec : (t.query_store.queries_data ++ [(⟨r.2, []⟩ : QueryData)]).get?
        t.query_store.queries_data.length = some ⟨r.2, []⟩ := List.get?_concat_length _ _
    have hget : QueryStore.get
        { t.query_store with
          queries_data := t.query_store.queries_data ++ [⟨r.2, []⟩],
          text_index := t.query_store.text_index ++ [(r.2, t.query_store.queries_data.length)] }
        ((t.query_store.queries_data.length : Nat) : Int) = .ok ⟨r.2, []⟩ :=
      queryStore_get_nat hget_rec
    have hpc0 : ∀ p, lookupPC ([] : List (List Nat × Nat)) p = expMid rs r.2 [] p := by
      intro p
      rw [expMid_nil, countAt_zero_of_not_mem hnm]
      simp [lookupPC, List.find?]
    obtain ⟨root2, pc2, hloop, Y1, Y2, Y3, Y4⟩ :=
      addDigits_spec rs r t.query_store.queries_data.length hqid'
        (digitsOf r.1) [] [] t.root rfl (digitsOf_lt_ten r.1)
        hinv.hlen10 hinv.hexists hinv.hnode (fun h => absurd rfl h) hpc0
    refine ⟨⟨root2,
      { t.query_store with
        queries_data := setPCAt (t.query_store.queries_data ++ [⟨r.2, []⟩])
          t.query_store.queries_data.length pc2,
        text_index := t.query_store.text_index ++ [(r.2, t.query_store.queries_data.length)] }⟩,
      ?_, ?_⟩
    · simp only [Trie.add, h14, if_true, hadd, hget, hloop, reduceIte]
    · refine ⟨hinv.hfin, ?_, ?_, ?_, ?_, Y1, ?_, ?_⟩
      · -- texts
        show (setPCAt (t.query_store.queries_data ++ [⟨r.2, []⟩])
            t.query_store.queries_data.length pc2).map QueryData.query_text
          = distinctTexts (rs ++ [r])
        rw [setPCAt_map_text, List.map_append, hinv.htexts, hDT]
        rfl
      · -- index lookups that succeed
        intro s i h
        rw [lookupStr_append_one] at h
        rcases hold : lookupStr t.query_store.text_index s with _ | j
        · rw [hold] at h
          by_cases hs : s = r.2
          · subst hs
            rw [if_pos rfl] at h
            rcases Option.some.inj h with rfl
            exact hqid'
          · rw [if_neg hs] at h
            exact Option.noConfusion h
        · rw [hold] at h
          have hgot := hinv.hidx_some s j hold
          have hlt : j < (distinctTexts rs).length := by
            by_contra hc
            rw [List.get?_eq_none.mpr (Nat.le_of_not_lt hc)] at hgot
            exact Option.noConfusion hgot
          rw [← Option.some.inj h, hDT, List.get?_append hlt]
          exact hgot
      · -- index lookups that fail
        intro s h
        rw [lookupStr_append_one] at h
        rcases hold : lookupStr t.query_store.text_index s with _ | j
        · rw [hold] at h
          by_cases hs : s = r.2
          · rw [if_pos hs] at h
            exact Option.noConfusion h
          · rw [hDT]
            intro hmem
            rcases List.mem_append.mp hmem with hmem | hmem
            · exact hinv.hidx_none s hold hmem
            · exact hs (List.mem_singleton.mp hmem)
        · rw [hold] at h
          exact Option.noConfusion h
      · -- per-record transient counters
        intro i qd2 hqd2 p
        by_cases hi : i = t.query_store.queries_data.length
        · subst hi
          rw [setPCAt_get?_self _ _ _ _ hget_rec] at hqd2
          rcases Option.some.inj hqd2 with rfl
          show lookupPC pc2 p = expMid (rs ++ [r]) r.2 [] p
          rw [Y4 p, ← expMid_full]
          rfl
        · rw [setPCAt_get?_ne _ _ _ _ hi] at hqd2
          have hisome : i < t.query_store.queries_data.length + 1 := by
            by_contra hc
            rw [List.get?_eq_none.mpr (by
              simp only [List.length_append, List.length_singleton]
              omega)] at hqd2
            exact Option.noConfusion hqd2
          have hilt : i < t.query_store.queries_data.length := by omega
          rw [List.get?_append hilt] at hqd2
          have hold := hinv.hpc i qd2 hqd2 p
          have htexti : (distinctTexts rs).get? i = some qd2.query_text := by
            rw [← hinv.htexts, List.get?_map, hqd2]
            rfl
          have hsne : qd2.query_text ≠ r.2 := by
            intro he
            exact hnm (he ▸ List.get?_mem htexti)
          rw [hold]
          exact expMid_untouched hsne p
      · -- node existence
        intro p hp
        exact Y2 p hp
      · -- node payloads
        intro p n1 hp hw
        exact Y3 p n1 (by simpa using hp) hw
  · -- the text is already interned
    have hadd : QueryStore.add t.query_store r.2 = .ok (qid, t.query_store) := by
      rw [QueryStore.add, if_neg (by rw [hinv.hfin]; simp), hlk]
    have htext : (distinctTexts rs).get? qid = some r.2 := hinv.hidx_some r.2 qid hlk
    have hmem : r.2 ∈ distinctTexts rs := List.get?_mem htext
    have hDT : distinctTexts (rs ++ [r]) = distinctTexts rs := by
      rw [distinctTexts_append, if_pos hmem]
    have hqid' : (distinctTexts (rs ++ [r])).get? qid = some r.2 := by
      rw [hDT]
      exact htext
    have hqlt : qid < t.query_store.queries_data.length := by
      rw [hlen_texts]
      by_contra hc
      rw [List.get?_eq_none.mpr (Nat.le_of_not_lt hc)] at htext
      exact Option.noConfusion htext
    rcases hqd : t.query_store.queries_data.get? qid with _ | qd
    · rw [List.get?_eq_none] at hqd
      omega
    have hget : QueryStore.get t.query_store ((qid : Nat) : Int) = .ok qd :=
      queryStore_get_nat hqd
    have hqdtext : qd.query_text = r.2 := by
      have h1 : (t.query_store.queries_data.map QueryData.query_text).get? qid
          = some qd.query_text := by
        rw [List.get?_map, hqd]
        rfl
      rw [hinv.htexts, htext] at h1
      exact (Option.some.inj h1).symm
    have hpcr : ∀ p, lookupPC qd.prefix_count p = expMid rs r.2 [] p := by
      intro p
      rw [hinv.hpc qid qd hqd p, hqdtext]
    obtain ⟨root2, pc2, hloop, Y1, Y2, Y3, Y4⟩ :=
      addDigits_spec rs r qid hqid'
        (digitsOf r.1) [] qd.prefix_count t.root rfl (digitsOf_lt_ten r.1)
        hinv.hlen10 hinv.hexists hinv.hnode (fun h => absurd rfl h) hpcr
    refine ⟨⟨root2, { t.query_store with
        queries_data := setPCAt t.query_store.queries_data qid pc2 }⟩, ?_, ?_⟩
    · simp only [Trie.add, h14, if_true, hadd, hget, hloop, reduceIte]
    · refine ⟨hinv.hfin, ?_, ?_, ?_, ?_, Y1, ?_, ?_⟩
      · show (setPCAt t.query_store.queries_data qid pc2).map QueryData.query_text
          = distinctTexts (rs ++ [r])
        rw [setPCAt_map_text, hinv.htexts, hDT]
      · intro s i h
        rw [hDT]
        exact hinv.hidx_some s i h
      · intro s h
        rw [hDT]
        exact hinv.hidx_none s h
      · intro i qd2 hqd2 p
        by_cases hi : i = qid
        · subst hi
          rw [setPCAt_get?_self _ _ _ _ hqd] at hqd2
          rcases Option.some.inj hqd2 with rfl
          show lookupPC pc2 p = expMid (rs ++ [r]) qd.query_text [] p
          rw [Y4 p, hqdtext, ← expMid_full]
          rfl
        · rw [setPCAt_get?_ne _ _ _ _ hi] at hqd2
          have hold := hinv.hpc i qd2 hqd2 p
          have htexti : (distinctTexts rs).get? i = some qd2.query_text := by
            rw [← hinv.htexts, List.get?_map, hqd2]
            rfl
          have hsne : qd2.query_text ≠ r.2 := by
            intro he
            rw [he] at htexti
            exact hi (List.get?_inj (by
              by_contra hc
              rw [List.get?_eq_none.mpr (Nat.le_of_not_lt hc)] at htexti
              exact Option.noConfusion htexti)
              (nodup_distinctTexts rs) (by rw [htexti, htext]))
          rw [hold]
          exact expMid_untouched hsne p
      · intro p hp
        exact Y2 p hp
      · intro p n1 hp hw
        exact Y3 p n1 (by simpa using hp) hw

/-! ## Running a full ingestion -/

theorem trieInv_init : TrieInv [] Trie.init := by
  refine ⟨rfl, rfl, ?_, ?_, ?_, ?_, ?_, ?_⟩
  · intro s i h
    simp [lookupStr, List.find?] at h
  · intro s h
    simp [distinctTexts]
  · intro i qd h
    exact Option.noConfusion h
  · intro p n1 hw
    cases p with
    | nil =>
      rcases Option.some.inj hw with rfl
      rfl
    | cons d rest =>
      rw [show Trie.init.root = TrieNode.empty from rfl, walk_empty _ (by simp)] at hw
      exact Option.noConfusion hw
  · intro p hp
    rw [show Trie.init.root = TrieNode.empty from rfl, walk_empty p hp]
    simp
  · intro p n1 hp hw
    rw [show Trie.init.root = TrieNode.empty from rfl, walk_empty p hp] at hw
    exact Option.noConfusion hw

theorem runAddsFrom_inv : ∀ (rest hs : List LogRecord) (t : Trie),
    TrieInv hs t → (∀ r ∈ rest, (digitsOf r.1).length = 14) →
    ∃ t2, runAddsFrom t rest = .ok t2 ∧ TrieInv (hs ++ rest) t2 := by
  intro rest
  induction rest with
  | nil =>
    intro hs t hinv _
    exact ⟨t, rfl, by simpa using hinv⟩
  | cons r rest2 ih =>
    intro hs t hinv hval
    obtain ⟨t1, hadd, hinv1⟩ := add_extend r hinv (hval r (List.mem_cons_self _ _))
    obtain ⟨t2, hrun, hinv2⟩ :=
      ih (hs ++ [r]) t1 hinv1 (fun x hx => hval x (List.mem_cons_of_mem _ hx))
    refine ⟨t2, ?_, ?_⟩
    · simp only [runAddsFrom, hadd]
      exact hrun
    · rw [List.append_assoc, List.singleton_append] at hinv2
      exact hinv2

theorem trieInv_of_run {rs : List LogRecord} {t : Trie}
    (hval : ∀ r ∈ rs, (digitsOf r.1).length = 14) (hrun : runAdds rs = .ok t) :
    TrieInv rs t := by
  obtain ⟨t2, hrun2, hinv2⟩ := runAddsFrom_inv rs [] Trie.init trieInv_init hval
  rw [runAdds] at hrun
  rw [hrun] at hrun2
  rcases Except.ok.inj hrun2 with rfl
  simpa using hinv2

/-! ## Query-side helper lemmas -/

theorem pySlice_eq_take {α : Type} (l : List α) (k : Int) :
    ∃ n, pySlice l k = l.take n := by
  rw [pySlice]
  by_cases h0 : 0 ≤ k
  · exact ⟨k.toNat, if_pos h0⟩
  · exact ⟨l.length - (-k).toNat, if_neg h0⟩

theorem queryStore_get_nat_inv {s : QueryStore} {i : Nat} {qd : QueryData}
    (h : QueryStore.get s ((i : Nat) : Int) = .ok qd) :
    s.queries_data.get? i = some qd := by
  have h0 : (0 : Int) ≤ (i : Int) := Int.ofNat_nonneg i
  have hpy : pyIndex s.queries_data ((i : Nat) : Int) = s.queries_data.get? i := by
    rw [pyIndex, if_pos h0, Int.toNat_natCast]
  simp only [QueryStore.get] at h
  rw [hpy] at h
  rcases hg : s.queries_data.get? i with _ | qd2
  · rw [hg] at h
    have h2 : (Except.error PyErr.indexError : Except PyErr QueryData) = .ok qd := h
    exact Except.noConfusion h2
  · rw [hg] at h
    have h2 : (Except.ok qd2 : Except PyErr QueryData) = .ok qd := h
    exact congrArg some (Except.ok.inj h2)

theorem translateTop_mem : ∀ {store : QueryStore} {l : List TopQuery}
    {out : List (String × Nat)}, translateTop store l = .ok out →
    ∀ e ∈ out, ∃ tq ∈ l, ∃ qd, QueryStore.get store ((tq.id : Nat) : Int) = .ok qd ∧
      e = (qd.query_text, tq.count) := by
  intro store l
  induction l with
  | nil =>
    intro out h e he
    have : out = [] := (Except.ok.inj h).symm
    rw [this] at he
    exact absurd he (List.not_mem_nil e)
  | cons tq rest ih =>
    intro out h e he
    rw [translateTop] at h
    rcases hg : QueryStore.get store ((tq.id : Nat) : Int) with _ | qd
    · rw [hg] at h
      exact Except.noConfusion h
    · rw [hg] at h
      rcases ht : translateTop store rest with _ | out2
      · rw [ht] at h
        exact Except.noConfusion h
      · rw [ht] at h
        have hout : (qd.query_text, tq.count) :: out2 = out := Except.ok.inj h
        rw [← hout] at he
        rcases List.mem_cons.mp he with rfl | he2
        · exact ⟨tq, List.mem_cons_self _ _, qd, hg, rfl⟩
        · rcases ih ht e he2 with ⟨tq2, h1, qd2, h2, h3⟩
          exact ⟨tq2, List.mem_cons_of_mem _ h1, qd2, h2, h3⟩

theorem translateTop_length : ∀ {store : QueryStore} {l : List TopQuery}
    {out : List (String × Nat)}, translateTop store l = .ok out →
    out.length = l.length := by
  intro store l
  induction l with
  | nil =>
    intro out h
    rw [← Except.ok.inj h]
    rfl
  | cons tq rest ih =>
    intro out h
    rw [translateTop] at h
    rcases hg : QueryStore.get store ((tq.id : Nat) : Int) with _ | qd
    · rw [hg] at h
      exact Except.noConfusion h
    · rw [hg] at h
      rcases ht : translateTop store rest with _ | out2
      · rw [ht] at h
        exact Except.noConfusion h
      · rw [ht] at h
        rw [← Except.ok.inj h]
        simp [ih ht]

theorem translateTop_pairwise : ∀ {store : QueryStore} {l : List TopQuery}
    {out : List (String × Nat)}, translateTop store l = .ok out →
    l.Pairwise (fun a b => b.count ≤ a.count) →
    out.Pairwise (fun a b => b.2 ≤ a.2) := by
  intro store l
  induction l with
  | nil =>
    intro out h _
    rw [← Except.ok.inj h]
    exact List.Pairwise.nil
  | cons tq rest ih =>
    intro out h hs
    rw [translateTop] at h
    rcases List.pairwise_cons.mp hs with ⟨hhd, hrest⟩
    rcases hg : QueryStore.get store ((tq.id : Nat) : Int) with _ | qd
    · rw [hg] at h
      exact Except.noConfusion h
    · rw [hg] at h
      rcases ht : translateTop store rest with _ | out2
      · rw [ht] at h
        exact Except.noConfusion h
      · rw [ht] at h
        rw [← Except.ok.inj h]
        refine List.pairwise_cons.mpr ⟨?_, ih ht hrest⟩
        intro e he2
        rcases translateTop_mem ht e he2 with ⟨tq2, h1, qd2, _, h3⟩
        rw [h3]
        exact hhd tq2 h1

theorem get_node_ok {t : Trie} {P : String} (hne : digitsOf P ≠ []) :
    Trie.get_node_at_prefix t P = .ok (walk t.root (digitsOf P)) := by
  rw [Trie.get_node_at_prefix, if_neg hne]

theorem distinct_spec {rs : List LogRecord} {t : Trie}
    (hval : ∀ r ∈ rs, (digitsOf r.1).length = 14) (hrun : runAdds rs = .ok t)
    {P : String} (hne : digitsOf P ≠ []) :
    Trie.distinct_queries_by_prefix t P = .ok (dCount rs (digitsOf P)) := by
  have hinv := trieInv_of_run hval hrun
  have hgn := get_node_ok (t := t) hne
  cases hw : walk t.root (digitsOf P) with
  | none =>
    have hno : ¬ ∃ rr ∈ rs, (digitsOf P) <+: digitsOf rr.1 := by
      intro hex
      have hsome := (hinv.hexists (digitsOf P) hne).mpr hex
      rw [hw] at hsome
      simp at hsome
    rw [dCount_zero_of_no_reach hno]
    simp only [Trie.distinct_queries_by_prefix, hgn, hw]
  | some node =>
    have hd := (hinv.hnode (digitsOf P) node hne hw).1
    simp only [Trie.distinct_queries_by_prefix, hgn, hw, hd]

theorem digitsOf_push (P : String) (c : Char) (hc : c.isDigit = true) :
    digitsOf (P.push c) = digitsOf P ++ [charDigit c] := by
  have htl : (P.push c).toList = P.toList ++ [c] := by
    rcases P with ⟨data⟩
    rfl
  rw [digitsOf, digitsOf, htl, List.filter_append, List.map_append]
  simp [hc]

theorem top_queries_ok_cases {t : Trie} {P : String} {k : Int}
    {out : List (String × Nat)}
    (h : Trie.top_queries_by_prefix t P k = .ok out) :
    ¬ ((TOP_QUERIES_SIZE_K : Int) < k) ∧ digitsOf P ≠ [] ∧
      ((walk t.root (digitsOf P) = none ∧ out = []) ∨
       (∃ node, walk t.root (digitsOf P) = some node ∧
         translateTop t.query_store
           (TopQueriesCache.get node.top_queries_cache k) = .ok out)) := by
  by_cases hk : (TOP_QUERIES_SIZE_K : Int) < k
  · rw [Trie.top_queries_by_prefix, if_pos hk] at h
    exact Except.noConfusion h
  · refine ⟨hk, ?_, ?_⟩
    · intro hne
      rw [Trie.top_queries_by_prefix, if_neg hk] at h
      rw [show Trie.get_node_at_prefix t P = .error .invalidDatePrefix from by
        rw [Trie.get_node_at_prefix, if_pos hne]] at h
      exact Except.noConfusion h
    · by_cases hne : digitsOf P = []
      · exfalso
        rw [Trie.top_queries_by_prefix, if_neg hk] at h
        rw [show Trie.get_node_at_prefix t P = .error .invalidDatePrefix from by
          rw [Trie.get_node_at_prefix, if_pos hne]] at h
        exact Except.noConfusion h
      · rw [Trie.top_queries_by_prefix, if_neg hk, get_node_ok hne] at h
        cases hw : walk t.root (digitsOf P) with
        | none =>
          left
          rw [hw] at h
          have h2 : (Except.ok [] : Except PyErr (List (String × Nat))) = .ok out := h
          exact ⟨rfl, (Except.ok.inj h2).symm⟩
        | some node =>
          right
          rw [hw] at h
          exact ⟨node, rfl, h⟩

theorem top_queries_none {t : Trie} {P : String} {k : Int}
    (hk : ¬ ((TOP_QUERIES_SIZE_K : Int) < k)) (hne : digitsOf P ≠ [])
    (hw : walk t.root (digitsOf P) = none) :
    Trie.top_queries_by_prefix t P k = .ok [] := by
  rw [Trie.top_queries_by_prefix, if_neg hk, get_node_ok hne, hw]

/-! ## The claims -/

/-- C2: for every valid ingestion and every prefix of 1 to 14 digit
characters, `distinct_queries_by_prefix` returns exactly the number of
distinct query texts among the records whose 14 timestamp digits start
with the prefix digits, and every existing node's `distinct` field equals
that brute-force distinct count for its path. -/
theorem C2_distinct_correct (rs : List LogRecord) (t : Trie)
    (hval : ∀ r ∈ rs, (digitsOf r.1).length = 14)
    (hrun : runAdds rs = .ok t) (P : String)
    (h1 : 1 ≤ (digitsOf P).length) (h14 : (digitsOf P).length ≤ 14) :
    Trie.distinct_queries_by_prefix t P = .ok (dCount rs (digitsOf P)) ∧
    (∀ p node, p ≠ [] → walk t.root p = some node → node.distinct = dCount rs p) := by
  have hinv := trieInv_of_run hval hrun
  have hne : digitsOf P ≠ [] := by
    intro h
    rw [h] at h1
    simp at h1
  exact ⟨distinct_spec hval hrun hne,
    fun p node hp hw => (hinv.hnode p node hp hw).1⟩

/-- C2 witness: the end-to-end example of the source's own tests, at the
concrete prefix string 2015, whose brute-force distinct count is 2. -/
theorem C2_witness :
    ((∀ r ∈ rsEx, (digitsOf r.1).length = 14) ∧ runAdds rsEx = .ok tEx ∧
      1 ≤ (digitsOf "2015").length ∧ (digitsOf "2015").length ≤ 14 ∧
      dCount rsEx (digitsOf "2015") = 2) ∧
    (Trie.distinct_queries_by_prefix tEx "2015" = .ok (dCount rsEx (digitsOf "2015")) ∧
     (∀ p node, p ≠ [] → walk tEx.root p = some node →
       node.distinct = dCount rsEx p)) :=
  ⟨⟨by decide, rfl, by decide, by decide, by decide⟩,
   C2_distinct_correct rsEx tEx (by decide) rfl "2015" (by decide) (by decide)⟩

/-- C4: distinct counts narrow monotonically; appending one digit
character to a prefix cannot increase `distinct_queries_by_prefix`. -/
theorem C4_monotone_narrowing (rs : List LogRecord) (t : Trie)
    (hval : ∀ r ∈ rs, (digitsOf r.1).length = 14)
    (hrun : runAdds rs = .ok t) (P : String) (c : Char)
    (hc : c.isDigit = true)
    (h1 : 1 ≤ (digitsOf P).length) (h14 : (digitsOf P).length + 1 ≤ 14)
    (a b : Nat)
    (ha : Trie.distinct_queries_by_prefix t (P.push c) = .ok a)
    (hb : Trie.distinct_queries_by_prefix t P = .ok b) :
    a ≤ b := by
  have hne : digitsOf P ≠ [] := by
    intro h
    rw [h] at h1
    simp at h1
  have hne2 : digitsOf (P.push c) ≠ [] := by
    rw [digitsOf_push P c hc]
    simp
  have ha2 := distinct_spec hval hrun hne2
  have hb2 := distinct_spec hval hrun hne
  have haa : a = dCount rs (digitsOf (P.push c)) := by
    rw [ha] at ha2
    exact Except.ok.inj ha2
  have hbb : b = dCount rs (digitsOf P) := by
    rw [hb] at hb2
    exact Except.ok.inj hb2
  rw [haa, hbb, digitsOf_push P c hc]
  exact dCount_mono_extend rs (digitsOf P) (charDigit c)

/-- C4 witness: in the end-to-end example, the prefix 2015-0 covers both
query texts while 2015-08 covers one. -/
theorem C4_witness :
    ((∀ r ∈ rsEx, (digitsOf r.1).length = 14) ∧ runAdds rsEx = .ok tEx ∧
      Char.isDigit '8' = true ∧
      1 ≤ (digitsOf "2015-0").length ∧ (digitsOf "2015-0").length + 1 ≤ 14 ∧
      Trie.distinct_queries_by_prefix tEx ("2015-0".push '8') = .ok 1 ∧
      Trie.distinct_queries_by_prefix tEx "2015-0" = .ok 2) ∧
    (1 : Nat) ≤ 2 :=
  ⟨⟨by decide, rfl, by decide, by decide, by decide, rfl, rfl⟩,
   C4_monotone_narrowing rsEx tEx (by decide) rfl "2015-0" '8' (by decide) (by decide)
     (by decide) 1 2 rfl rfl⟩

/-- C5: once a trie has been finalized, any `add` with a well-formed
14-digit timestamp fails with the ingestion-closed `RuntimeError` raised
by the query store (and, returning an error, produces no new state). -/
theorem C5_add_after_finalize (t : Trie) (ts txt : String)
    (h14 : (digitsOf ts).length = 14) :
    Trie.add (Trie.finalize t) ts txt = .error .runtimeError := by
  have hsadd : QueryStore.add (QueryStore.finalize t.query_store) txt
      = .error .runtimeError := by
    rw [QueryStore.add,
      if_pos (show (QueryStore.finalize t.query_store).finalized = true from rfl)]
  simp only [Trie.add, h14, reduceIte, Trie.finalize, hsadd]

/-- C5 witness: adding to the finalized example trie fails. -/
theorem C5_witness :
    (digitsOf "2015-11-01 00:03:49").length = 14 ∧
    Trie.add (Trie.finalize tEx) "2015-11-01 00:03:49" "vungle"
      = .error .runtimeError :=
  ⟨by decide, C5_add_after_finalize tEx "2015-11-01 00:03:49" "vungle" (by decide)⟩

theorem queryStore_finalize_idem (s : QueryStore) :
    QueryStore.finalize (QueryStore.finalize s) = QueryStore.finalize s := by
  simp only [QueryStore.finalize, List.map_map]
  rfl

/-- C6 counterexample: calling `finalize` a second time does not fail
with an AlreadyFinalized error; the code has no such guard at all, and
the second call returns normally leaving the state unchanged. -/
theorem C6_counterexample :
    Trie.finalize (Trie.finalize tEx) = Trie.finalize tEx ∧
    (Trie.finalize (Trie.finalize tEx)).query_store.finalized = true :=
  ⟨rfl, rfl⟩

/-- C6 amended: a second `finalize` does not raise `AlreadyFinalized`
(neither `Trie.finalize` nor `QueryStore.finalize` has a guard and no
such exception class exists); it succeeds and is a no-op. -/
theorem C6_finalize_idempotent (t : Trie) :
    Trie.finalize (Trie.finalize t) = Trie.finalize t := by
  simp only [Trie.finalize]
  rw [queryStore_finalize_idem]

/-- C7: on every reachable non-finalized trie, `add` fails exactly when
the timestamp does not contain exactly 14 digit characters (the code
raises this invalid-timestamp condition with a bare `assert`), and
succeeds whenever the timestamp has exactly 14 digit characters. -/
theorem C7_invalid_timestamp (rs : List LogRecord) (t : Trie)
    (hval : ∀ r ∈ rs, (digitsOf r.1).length = 14)
    (hrun : runAdds rs = .ok t) (ts txt : String) :
    (¬ (digitsOf ts).length = 14 → Trie.add t ts txt = .error .assertionError) ∧
    ((digitsOf ts).length = 14 → ∃ t2, Trie.add t ts txt = .ok t2) := by
  constructor
  · intro hne
    rw [Trie.add, if_neg hne]
  · intro h14
    obtain ⟨t2, hadd, _⟩ := add_extend (ts, txt) (trieInv_of_run hval hrun) h14
    exact ⟨t2, hadd⟩

/-- C7 witness: a 13-digit timestamp is rejected with the assertion
error and a 14-digit one is accepted, on the example trie. -/
theorem C7_witness :
    ((∀ r ∈ rsEx, (digitsOf r.1).length = 14) ∧ runAdds rsEx = .ok tEx) ∧
    ((¬ (digitsOf "2015-11-01 00:03:4").length = 14 →
      Trie.add tEx "2015-11-01 00:03:4" "x" = .error .assertionError) ∧
     ((digitsOf "2015-11-01 00:03:4").length = 14 →
      ∃ t2, Trie.add tEx "2015-11-01 00:03:4" "x" = .ok t2)) :=
  ⟨⟨by decide, rfl⟩, C7_invalid_timestamp rsEx tEx (by decide) rfl "2015-11-01 00:03:4" "x"⟩

/-- C8: a prefix with at least one digit whose path was never observed
yields a distinct count of 0 and an empty top list (size within bounds),
with no error raised. -/
theorem C8_unseen_prefix (rs : List LogRecord) (t : Trie)
    (hval : ∀ r ∈ rs, (digitsOf r.1).length = 14)
    (hrun : runAdds rs = .ok t) (P : String) (k : Int)
    (hne : digitsOf P ≠ [])
    (hmiss : ∀ r ∈ rs, ¬ (digitsOf P <+: digitsOf r.1))
    (hk : k ≤ 50) :
    Trie.distinct_queries_by_prefix t P = .ok 0 ∧
    Trie.top_queries_by_prefix t P k = .ok [] := by
  have hinv := trieInv_of_run hval hrun
  have hno : ¬ ∃ rr ∈ rs, digitsOf P <+: digitsOf rr.1 := by
    intro h
    rcases h with ⟨rr, h1, h2⟩
    exact hmiss rr h1 h2
  have hw : walk t.root (digitsOf P) = none := by
    rcases hcase : walk t.root (digitsOf P) with _ | node
    · rfl
    · exfalso
      refine hno ((hinv.hexists (digitsOf P) hne).mp ?_)
      rw [hcase]
      rfl
  constructor
  · have h := distinct_spec hval hrun hne
    rw [dCount_zero_of_no_reach hno] at h
    exact h
  · have hk2 : ¬ ((TOP_QUERIES_SIZE_K : Int) < k) := by
      intro hlt
      simp only [TOP_QUERIES_SIZE_K] at hlt
      push_cast at hlt
      omega
    exact top_queries_none hk2 hne hw

/-- C8 witness: the prefix 2013 is never observed in the example. -/
theorem C8_witness :
    ((∀ r ∈ rsEx, (digitsOf r.1).length = 14) ∧ runAdds rsEx = .ok tEx ∧
      digitsOf "2013" ≠ [] ∧
      (∀ r ∈ rsEx, ¬ (digitsOf "2013" <+: digitsOf r.1)) ∧ (2 : Int) ≤ 50) ∧
    (Trie.distinct_queries_by_prefix tEx "2013" = .ok 0 ∧
     Trie.top_queries_by_prefix tEx "2013" 2 = .ok []) :=
  ⟨⟨by decide, rfl, by decide, by decide, by decide⟩,
   C8_unseen_prefix rsEx tEx (by decide) rfl "2013" 2 (by decide) (by decide) (by decide)⟩

/-- C9 counterexample: a store that has issued the single id 0 does not
fail on the negative id -1; Python list indexing returns the last
record instead. -/
theorem C9_counterexample :
    QueryStore.add QueryStore.empty "a"
      = .ok (0, ⟨[⟨"a", []⟩], [("a", 0)], false⟩) ∧
    QueryStore.get (⟨[⟨"a", []⟩], [("a", 0)], false⟩ : QueryStore) (-1)
      = .ok ⟨"a", []⟩ :=
  ⟨rfl, rfl⟩

/-- C9 amended: `get(id)` returns the stored record for `0 ≤ id < n` and
fails with `IndexError` for `id ≥ n` and for `id < -n`; but for
`-n ≤ id < 0` Python negative indexing returns the record at position
`n + id` instead of failing. -/
theorem C9_get_semantics (s : QueryStore) (i : Int) :
    ((0 : Int) ≤ i → i < (s.queries_data.length : Int) →
      ∃ qd, QueryStore.get s i = .ok qd ∧ s.queries_data.get? i.toNat = some qd) ∧
    ((s.queries_data.length : Int) ≤ i → QueryStore.get s i = .error .indexError) ∧
    (i < -(s.queries_data.length : Int) → QueryStore.get s i = .error .indexError) ∧
    (-(s.queries_data.length : Int) ≤ i → i < 0 →
      ∃ qd, QueryStore.get s i = .ok qd ∧
        s.queries_data.get? (s.queries_data.length - (-i).toNat) = some qd) := by
  refine ⟨?_, ?_, ?_, ?_⟩
  · intro h0 hlt
    have hn : i.toNat < s.queries_data.length := by omega
    rcases hg : s.queries_data.get? i.toNat with _ | qd
    · rw [List.get?_eq_none] at hg
      omega
    · refine ⟨qd, ?_, rfl⟩
      rw [QueryStore.get, pyIndex, if_pos h0, hg]
  · intro hge
    have h0 : (0 : Int) ≤ i := by omega
    have hn : s.queries_data.length ≤ i.toNat := by omega
    rw [QueryStore.get, pyIndex, if_pos h0, List.get?_eq_none.mpr hn]
  · intro hlt
    have h0 : ¬ (0 : Int) ≤ i := by omega
    have h1 : ¬ (-(s.queries_data.length : Int) ≤ i) := by omega
    rw [QueryStore.get, pyIndex, if_neg h0, if_neg h1]
  · intro hge hlt
    have h0 : ¬ (0 : Int) ≤ i := by omega
    have hn : s.queries_data.length - (-i).toNat < s.queries_data.length := by omega
    rcases hg : s.queries_data.get? (s.queries_data.length - (-i).toNat) with _ | qd
    · rw [List.get?_eq_none] at hg
      omega
    · refine ⟨qd, ?_, rfl⟩
      rw [QueryStore.get, pyIndex, if_neg h0, if_pos hge, hg]

/-- C9 witness: in-range access on a concrete one-record store. -/
theorem C9_witness :
    ((0 : Int) ≤ 0 ∧
      (0 : Int) < (((⟨[⟨"a", []⟩], [("a", 0)], false⟩ : QueryStore)).queries_data.length : Int)) ∧
    (∃ qd, QueryStore.get (⟨[⟨"a", []⟩], [("a", 0)], false⟩ : QueryStore) 0 = .ok qd ∧
      ((⟨[⟨"a", []⟩], [("a", 0)], false⟩ : QueryStore)).queries_data.get? (0 : Int).toNat
        = some qd) :=
  ⟨⟨by decide, by decide⟩,
   (C9_get_semantics ⟨[⟨"a", []⟩], [("a", 0)], false⟩ 0).1 (by decide) (by decide)⟩

/-- C10: the size bound is checked before the prefix: any size above 50
raises `InvalidQuerySize` no matter the prefix (even one without
digits), and `InvalidDatePrefix` can only be raised when size ≤ 50. -/
theorem C10_size_checked_first (t : Trie) (P : String) (k : Int) :
    ((50 : Int) < k → Trie.top_queries_by_prefix t P k = .error .invalidQuerySize) ∧
    (Trie.top_queries_by_prefix t P k = .error .invalidDatePrefix → k ≤ 50) := by
  constructor
  · intro hk
    rw [Trie.top_queries_by_prefix, if_pos (show (TOP_QUERIES_SIZE_K : Int) < k from by
      simp only [TOP_QUERIES_SIZE_K]
      push_cast
      omega)]
  · intro h
    by_contra hc
    rw [Trie.top_queries_by_prefix, if_pos (show (TOP_QUERIES_SIZE_K : Int) < k from by
      simp only [TOP_QUERIES_SIZE_K]
      push_cast
      omega)] at h
    exact PyErr.noConfusion (Except.error.inj h)

/-- C10 witness: size 51 on an empty trie with a digitless prefix. -/
theorem C10_witness :
    (50 : Int) < 51 ∧
    Trie.top_queries_by_prefix Trie.init "" 51 = .error .invalidQuerySize :=
  ⟨by decide, (C10_size_checked_first Trie.init "" 51).1 (by decide)⟩

/-- C1: after any sequence of valid `add` calls, every reached node's
top-K cache is a true top-(≤50) set for its prefix — entries carry their
exact brute-force counts, ids are unrepeated, the list is sorted
descending and bounded by 50, and any query with a positive count that
is missing can only be missing from a full cache whose minimum dominates
it (the content of `CacheInv`) — and consequently every (text, count)
pair returned by `top_queries_by_prefix` has its count equal to the
brute-force recount over the ingested records. -/
theorem C1_topk_cache_correct (rs : List LogRecord) (t : Trie)
    (hval : ∀ r ∈ rs, (digitsOf r.1).length = 14)
    (hrun : runAdds rs = .ok t) :
    (∀ p node, p ≠ [] → walk t.root p = some node →
      CacheInv (fOf rs p) node.top_queries_cache) ∧
    (∀ (P : String) (k : Int) (out : List (String × Nat)),
      Trie.top_queries_by_prefix t P k = .ok out →
      ∀ e ∈ out, e.2 = countAt rs (digitsOf P) e.1) := by
  have hinv := trieInv_of_run hval hrun
  refine ⟨fun p node hp hw => (hinv.hnode p node hp hw).2, ?_⟩
  intro P k out hok e he
  rcases top_queries_ok_cases hok with ⟨hk, hne, hcase⟩
  rcases hcase with ⟨hw, rfl⟩ | ⟨node, hw, htr⟩
  · exact absurd he (List.not_mem_nil e)
  · rcases translateTop_mem htr e he with ⟨tq, htq, qd, hget, rfl⟩
    have htq_cache : tq ∈ node.top_queries_cache := by
      rcases pySlice_eq_take node.top_queries_cache k with ⟨n, hsl⟩
      rw [TopQueriesCache.get, hsl] at htq
      exact (List.take_sublist _ _).subset htq
    have hcinv := (hinv.hnode (digitsOf P) node hne hw).2
    rcases hcinv.counts tq htq_cache with ⟨hcount, hpos⟩
    have hqd := queryStore_get_nat_inv hget
    have htext : (distinctTexts rs).get? tq.id = some qd.query_text := by
      rw [← hinv.htexts, List.get?_map, hqd]
      rfl
    show tq.count = countAt rs (digitsOf P) qd.query_text
    rw [← hcount, fOf, htext]

/-- C1 witness: the invariant instantiated on the end-to-end example. -/
theorem C1_witness :
    ((∀ r ∈ rsEx, (digitsOf r.1).length = 14) ∧ runAdds rsEx = .ok tEx) ∧
    ((∀ p node, p ≠ [] → walk tEx.root p = some node →
      CacheInv (fOf rsEx p) node.top_queries_cache) ∧
    (∀ (P : String) (k : Int) (out : List (String × Nat)),
      Trie.top_queries_by_prefix tEx P k = .ok out →
      ∀ e ∈ out, e.2 = countAt rsEx (digitsOf P) e.1)) :=
  ⟨⟨by decide, rfl⟩, C1_topk_cache_correct rsEx tEx (by decide) rfl⟩

/-- C3 counterexample: two queries with equal counts at a shared prefix
make the returned counts non-strictly-decreasing, and a negative size
returns more than min(size, 50) entries; both refute the claim as
stated. -/
theorem C3_counterexample :
    runAdds rsTie = .ok tTie ∧
    Trie.top_queries_by_prefix tTie "2015" 2 = .ok [("a", 1), ("b", 1)] ∧
    ¬ ([(("a" : String), (1 : Nat)), ("b", 1)].Pairwise (fun a b => b.2 < a.2)) ∧
    Trie.top_queries_by_prefix tTie "2015" (-1) = .ok [("a", 1)] ∧
    ¬ ((([(("a" : String), (1 : Nat))].length : Int)) ≤ min (-1) 50) :=
  ⟨rfl, rfl, by decide, rfl, by decide⟩

/-- C3 amended: `top_queries_by_prefix(p, k)` raises `InvalidQuerySize`
whenever `k > 50`; otherwise, for nonnegative `k`, it returns at most
min(k, 50) entries whose counts are non-increasing (sorted by count
descending, ties permitted — the cache keeps at most one entry per id
but equal counts across ids occur). -/
theorem C3_topk_bound_sorted (rs : List LogRecord) (t : Trie)
    (hval : ∀ r ∈ rs, (digitsOf r.1).length = 14)
    (hrun : runAdds rs = .ok t) (P : String) (k : Int) :
    ((50 : Int) < k → Trie.top_queries_by_prefix t P k = .error .invalidQuerySize) ∧
    (0 ≤ k → ∀ out, Trie.top_queries_by_prefix t P k = .ok out →
      (out.length : Int) ≤ min k 50 ∧ out.Pairwise (fun a b => b.2 ≤ a.2)) := by
  have hinv := trieInv_of_run hval hrun
  constructor
  · intro hk
    rw [Trie.top_queries_by_prefix, if_pos (show (TOP_QUERIES_SIZE_K : Int) < k from by
      simp only [TOP_QUERIES_SIZE_K]
      push_cast
      omega)]
  · intro hk0 out hok
    rcases top_queries_ok_cases hok with ⟨hk, hne, hcase⟩
    rcases hcase with ⟨hw, rfl⟩ | ⟨node, hw, htr⟩
    · refine ⟨?_, List.Pairwise.nil⟩
      simp only [List.length_nil, Nat.cast_zero]
      refine le_min hk0 (by omega)
    · have hcinv := (hinv.hnode (digitsOf P) node hne hw).2
      have hlen := translateTop_length htr
      have hsl : TopQueriesCache.get node.top_queries_cache k
          = node.top_queries_cache.take k.toNat := by
        rw [TopQueriesCache.get, pySlice, if_pos hk0]
      constructor
      · rw [hlen, hsl, List.length_take]
        have hc50 : node.top_queries_cache.length ≤ 50 := hcinv.bounded
        refine le_min ?_ ?_
        · have h1 : min k.toNat node.top_queries_cache.length ≤ k.toNat :=
            Nat.min_le_left _ _
          omega
        · have h2 : min k.toNat node.top_queries_cache.length
              ≤ node.top_queries_cache.length := Nat.min_le_right _ _
          omega
      · refine translateTop_pairwise htr ?_
        rw [hsl]
        exact hcinv.sorted.sublist (List.take_sublist _ _)

/-- C3 witness: the amended bound and order on the example trie at size 2. -/
theorem C3_witness :
    ((∀ r ∈ rsEx, (digitsOf r.1).length = 14) ∧ runAdds rsEx = .ok tEx) ∧
    (((50 : Int) < 2 → Trie.top_queries_by_prefix tEx "2015" 2
        = .error .invalidQuerySize) ∧
     (0 ≤ (2 : Int) → ∀ out, Trie.top_queries_by_prefix tEx "2015" 2 = .ok out →
       (out.length : Int) ≤ min 2 50 ∧ out.Pairwise (fun a b => b.2 ≤ a.2))) :=
  ⟨⟨by decide, rfl⟩, C3_topk_bound_sorted rsEx tEx (by decide) rfl "2015" 2⟩
